import Mathlib

/-!
# A shallow embedding of the cj JSON parser (src/cj.c, src/cj.h)

The parser state of cj is a byte cursor over a pull reader, an allocator,
a recursion-depth counter and a longjmp-based error channel.  Here the byte
stream delivered by the reader is modelled as a `List Nat` of bytes (the
string reader delivers the whole input in one chunk and then reports EOF,
and never reports a read error), the error channel is modelled by `Except`,
and the depth counter is threaded explicitly.  Machine integers are
modelled as `Nat`/`Int`; all bitwise operations of the C source are kept
as bitwise operations on `Nat`.

Allocation is abstracted away in the main embedding (containers are Lean
lists); the allocator-facing layer (`alloc`, `container_init`,
`container_add_one`, `container_shrink`) is embedded separately further
down with an explicit allocation-tracking state, to settle the claims that
are about allocation behaviour.
-/

namespace CJ

/-- Result codes of `cj_parse` (src/cj.h, `CJParseResult`). -/
inductive CJParseResult where
  | success
  | outOfMemory
  | syntaxError
  | tooMuchNesting
  | readError
deriving DecidableEq

/-- Model of an IEEE-754 binary64 value as delivered by `strtod`.  Finite
values are carried as exact rationals (rounding to the nearest double is
abstracted away; no claim in this development depends on rounding of an
in-range value).  `posInf`/`negInf` model the overflow result of `strtod`
(±HUGE_VAL); `nan` is never produced by any definition here. -/
inductive DoubleVal where
  | finite (q : ℚ)
  | posInf
  | negInf
  | nan
deriving DecidableEq

/-- A parsed JSON string (src/cj.h `CJString`): `chars` is the shrunken
backing buffer including the trailing NUL pushed by `parse_string`;
`length` excludes that terminator. -/
structure CJString where
  length : Nat
  chars : List Nat
deriving DecidableEq

/-- A parsed JSON value (src/cj.h `CJValue`).  Arrays and objects are
Lean lists; a length-0 container corresponds to the NULL backing pointer
of the C representation (see the allocation layer below). -/
inductive CJValue where
  | null
  | boolean (b : Bool)
  | number (d : DoubleVal)
  | string (s : CJString)
  | array (elements : List CJValue)
  | object (members : List (CJString × CJValue))

mutual

/-- Structural equality test on values (the derive handler does not
support this nested inductive). -/
def beqV : CJValue → CJValue → Bool
  | .null, .null => true
  | .boolean a, .boolean b => a == b
  | .number a, .number b => a == b
  | .string a, .string b => a == b
  | .array a, .array b => beqL a b
  | .object a, .object b => beqM a b
  | _, _ => false
termination_by structural a => a

/-- Structural equality test on element lists. -/
def beqL : List CJValue → List CJValue → Bool
  | [], [] => true
  | a :: xs, b :: ys => beqV a b && beqL xs ys
  | _, _ => false
termination_by structural a => a

/-- Structural equality test on member lists. -/
def beqM : List (CJString × CJValue) → List (CJString × CJValue) → Bool
  | [], [] => true
  | (k1, v1) :: xs, (k2, v2) :: ys => k1 == k2 && beqV v1 v2 && beqM xs ys
  | _, _ => false
termination_by structural a => a

end

mutual

theorem beqV_iff : ∀ a b : CJValue, beqV a b = true ↔ a = b
  | .null, b => by cases b <;> simp [beqV]
  | .boolean x, b => by cases b <;> simp [beqV]
  | .number x, b => by cases b <;> simp [beqV]
  | .string x, b => by cases b <;> simp [beqV]
  | .array xs, b => by
    cases b <;> simp [beqV]
    rename_i ys
    exact beqL_iff xs ys
  | .object xs, b => by
    cases b <;> simp [beqV]
    rename_i ys
    exact beqM_iff xs ys

theorem beqL_iff : ∀ a b : List CJValue, beqL a b = true ↔ a = b
  | [], b => by cases b <;> simp [beqL]
  | x :: xs, [] => by simp [beqL]
  | x :: xs, y :: ys => by
    simp [beqL, beqV_iff x y, beqL_iff xs ys]

theorem beqM_iff :
    ∀ a b : List (CJString × CJValue), beqM a b = true ↔ a = b
  | [], b => by cases b <;> simp [beqM]
  | m :: ms, [] => by simp [beqM]
  | (k1, v1) :: ms, (k2, v2) :: ms2 => by
    simp [beqM, beqV_iff v1 v2, beqM_iff ms ms2]

end

instance : DecidableEq CJValue := fun a b => decidable_of_iff _ (beqV_iff a b)

instance {ε α : Type} [DecidableEq ε] [DecidableEq α] :
    DecidableEq (Except ε α) := fun
  | .error e1, .error e2 => decidable_of_iff (e1 = e2) (by simp)
  | .error _, .ok _ => isFalse (by simp)
  | .ok _, .error _ => isFalse (by simp)
  | .ok a1, .ok a2 => decidable_of_iff (a1 = a2) (by simp)

/-! ## Byte-cursor primitives (src/cj.c lines 174-228)

`buf_ptr == NULL` (EOF) is the empty list; `advance` is `List.tail`;
a read never fails in the string-reader model. -/

/-- src/cj.c `at_eof`. -/
def atEof (input : List Nat) : Bool := input.isEmpty

/-- src/cj.c `take`: error at EOF, otherwise return the current byte and
advance. -/
def take (input : List Nat) : Except CJParseResult (Nat × List Nat) :=
  match input with
  | [] => .error .syntaxError
  | c :: rest => .ok (c, rest)

/-- src/cj.c `skip_ws`: skip the JSON whitespace bytes space, LF, CR, TAB. -/
def skipWs (input : List Nat) : List Nat :=
  match input with
  | c :: rest =>
    if c = 32 ∨ c = 10 ∨ c = 13 ∨ c = 9 then skipWs rest else c :: rest
  | [] => []

/-- src/cj.c `check`: true when not at EOF and the current byte is `c`. -/
def check (input : List Nat) (c : Nat) : Bool :=
  match input with
  | d :: _ => d = c
  | [] => false

/-- src/cj.c `require`: `check`, then advance, or a syntax error. -/
def require (input : List Nat) (c : Nat) : Except CJParseResult (List Nat) :=
  if check input c then .ok input.tail else .error .syntaxError

/-! ## String construction (src/cj.c lines 324-365)

The growable `String` container is abstracted to a `List Nat` of the
bytes pushed so far. -/

/-- src/cj.c `push_char`: append one byte to the string under
construction. -/
def pushChar (s : List Nat) (c : Nat) : List Nat := s ++ [c]

/-- src/cj.c `push_codepoint_unchecked`: UTF-8-encode a scalar into the
string under construction (WTF-8 for surrogate values, which are not
rejected here). -/
def pushCodepointUnchecked (s : List Nat) (cp : Nat) : List Nat :=
  if cp < 0x80 then
    pushChar s cp
  else
    let s :=
      if cp < 0x800 then
        pushChar s (0xC0 ||| (cp >>> 6))
      else
        let s :=
          if cp < 0x10000 then
            pushChar s (0xE0 ||| (cp >>> 12))
          else
            pushChar (pushChar s (0xF0 ||| (cp >>> 18)))
              (0x80 ||| ((cp >>> 12) &&& 0x3F))
        pushChar s (0x80 ||| ((cp >>> 6) &&& 0x3F))
    pushChar s (0x80 ||| (cp &&& 0x3F))

/-- src/cj.c `push_codepoint`: reject values above U+10FFFF, then encode. -/
def pushCodepoint (s : List Nat) (cp : Nat) :
    Except CJParseResult (List Nat) :=
  if cp > 0x10FFFF then .error .syntaxError
  else .ok (pushCodepointUnchecked s cp)

/-- src/cj.c `hex_digit`: consume one hex digit (via `take`), returning
its value. -/
def hexDigit (input : List Nat) : Except CJParseResult (Nat × List Nat) :=
  match input with
  | [] => .error .syntaxError
  | c :: rest =>
    if 48 ≤ c ∧ c ≤ 57 then .ok (c - 48, rest)
    else if 65 ≤ c ∧ c ≤ 70 then .ok (c - 65 + 10, rest)
    else if 97 ≤ c ∧ c ≤ 102 then .ok (c - 97 + 10, rest)
    else .error .syntaxError

/-- src/cj.c `read_escaped_codepoint`: the single-character escapes. -/
def readEscapedCodepoint (input : List Nat) :
    Except CJParseResult (Nat × List Nat) :=
  match input with
  | [] => .error .syntaxError
  | c :: rest =>
    if c = 34 ∨ c = 92 ∨ c = 47 then .ok (c, rest)
    else if c = 98 then .ok (8, rest)
    else if c = 102 then .ok (12, rest)
    else if c = 110 then .ok (10, rest)
    else if c = 114 then .ok (13, rest)
    else if c = 116 then .ok (9, rest)
    else .error .syntaxError

/-- src/cj.c `utf8_check_cont`: validate a `10xxxxxx` continuation byte
and fold its payload into the codepoint accumulator. -/
def utf8CheckCont (cp : Nat) (input : List Nat) :
    Except CJParseResult (Nat × List Nat) :=
  match input with
  | [] => .error .syntaxError
  | c :: rest =>
    if c &&& 0x80 = 0 ∨ c &&& 0x40 ≠ 0 then .error .syntaxError
    else .ok ((cp <<< 6) ||| (c &&& 0x3F), rest)

/-- src/cj.c `overlong_check`: mask the accumulator to the width of the
sequence and reject values at or below the previous width's maximum. -/
def overlongCheck (cp mask min : Nat) : Except CJParseResult Nat :=
  let cp := cp &&& mask
  if cp ≤ min then .error .syntaxError else .ok cp

/-- src/cj.c `read_utf8_codepoint`: decode one raw UTF-8 sequence;
unescaped bytes below 0x20 are a syntax error; surrogate values are not
rejected. -/
def readUtf8Codepoint (input : List Nat) :
    Except CJParseResult (Nat × List Nat) :=
  match input with
  | [] => .error .syntaxError
  | b :: rest =>
    if b &&& 0x80 = 0 then
      if b < 32 then .error .syntaxError else .ok (b, rest)
    else if b &&& 0x40 = 0 then .error .syntaxError
    else
      match utf8CheckCont (b &&& 0x7F) rest with
      | .error e => .error e
      | .ok (cp, rest) =>
        if b &&& 0x20 = 0 then
          match overlongCheck cp 0x7FF 0x7F with
          | .error e => .error e
          | .ok cp => .ok (cp, rest)
        else
          match utf8CheckCont cp rest with
          | .error e => .error e
          | .ok (cp, rest) =>
            if b &&& 0x10 = 0 then
              match overlongCheck cp 0xFFFF 0x7FF with
              | .error e => .error e
              | .ok cp => .ok (cp, rest)
            else
              match utf8CheckCont cp rest with
              | .error e => .error e
              | .ok (cp, rest) =>
                if b &&& 0x8 = 0 then
                  match overlongCheck cp 0x1FFFFF 0xFFFF with
                  | .error e => .error e
                  | .ok cp => .ok (cp, rest)
                else .error .syntaxError

/-- The recurring `if (*pending != -1) push_codepoint(p, string, *pending)`
pattern of src/cj.c: flush any pending surrogate verbatim into the
string. -/
def flushPending (pending : Option Nat) (s : List Nat) :
    Except CJParseResult (List Nat) :=
  match pending with
  | some pd => pushCodepoint s pd
  | none => .ok s

/-- src/cj.c `utf16_escape`: read four hex digits after `\u`; buffer a
high surrogate as pending, combine a low surrogate with a pending high
one via the surrogate formula, flush any pending surrogate verbatim
otherwise.  Returns the new pending slot, the extended string and the
remaining input. -/
def utf16Escape (pending : Option Nat) (s : List Nat) (input : List Nat) :
    Except CJParseResult (Option Nat × List Nat × List Nat) :=
  match hexDigit input with
  | .error e => .error e
  | .ok (h3, i1) =>
  match hexDigit i1 with
  | .error e => .error e
  | .ok (h2, i2) =>
  match hexDigit i2 with
  | .error e => .error e
  | .ok (h1, i3) =>
  match hexDigit i3 with
  | .error e => .error e
  | .ok (h0, i4) =>
  let current := (h3 <<< 12) ||| (h2 <<< 8) ||| (h1 <<< 4) ||| h0
  if current >>> 11 = 0x1B then
    if current &&& 0x400 ≠ 0 then
      match pending with
      | some pd =>
        (match pushCodepoint s
            ((((pd &&& 0x3FF) <<< 10) + 0x10000) ||| (current &&& 0x3FF)) with
        | .error e => .error e
        | .ok s => .ok (none, s, i4))
      | none =>
        match pushCodepoint s current with
        | .error e => .error e
        | .ok s => .ok (none, s, i4)
    else
      match flushPending pending s with
      | .error e => .error e
      | .ok s => .ok (some current, s, i4)
  else
    match flushPending pending s with
    | .error e => .error e
    | .ok s =>
      match pushCodepoint s current with
      | .error e => .error e
      | .ok s => .ok (none, s, i4)

/-! ### Consumption lemmas, used to justify termination of the string loop -/

theorem take_length {input : List Nat} {c rest}
    (h : take input = .ok (c, rest)) : rest.length + 1 = input.length := by
  cases input <;> simp [take] at h
  obtain ⟨-, rfl⟩ := h
  simp

theorem hexDigit_length {input : List Nat} {v rest}
    (h : hexDigit input = .ok (v, rest)) : rest.length + 1 = input.length := by
  cases input with
  | nil => simp [hexDigit] at h
  | cons c l =>
    simp only [hexDigit] at h
    repeat' split at h
    all_goals simp_all

theorem readEscapedCodepoint_length {input : List Nat} {v rest}
    (h : readEscapedCodepoint input = .ok (v, rest)) :
    rest.length + 1 = input.length := by
  cases input with
  | nil => simp [readEscapedCodepoint] at h
  | cons c l =>
    simp only [readEscapedCodepoint] at h
    repeat' split at h
    all_goals simp_all

theorem utf8CheckCont_length {cp input} {v : Nat} {rest : List Nat}
    (h : utf8CheckCont cp input = .ok (v, rest)) :
    rest.length + 1 = input.length := by
  cases input with
  | nil => simp [utf8CheckCont] at h
  | cons c l =>
    simp only [utf8CheckCont] at h
    split at h <;> simp_all

theorem overlongCheck_ok {cp mask min v}
    (h : overlongCheck cp mask min = .ok v) : v = cp &&& mask := by
  simp only [overlongCheck] at h
  split at h <;> simp_all

theorem readUtf8Codepoint_length {input : List Nat} {v rest}
    (h : readUtf8Codepoint input = .ok (v, rest)) :
    rest.length < input.length := by
  cases input with
  | nil => simp [readUtf8Codepoint] at h
  | cons b r1 =>
    simp only [readUtf8Codepoint] at h
    split at h
    · split at h <;> simp_all
    · split at h
      · simp at h
      · cases h2 : utf8CheckCont (b &&& 0x7F) r1 with
        | error e => simp [h2] at h
        | ok cr =>
          obtain ⟨cp1, r2⟩ := cr
          simp only [h2] at h
          have hr2 := utf8CheckCont_length h2
          split at h
          · split at h <;> simp_all; omega
          · cases h3 : utf8CheckCont cp1 r2 with
            | error e => simp [h3] at h
            | ok cr2 =>
              obtain ⟨cp2, r3⟩ := cr2
              simp only [h3] at h
              have hr3 := utf8CheckCont_length h3
              split at h
              · split at h <;> simp_all; omega
              · cases h4 : utf8CheckCont cp2 r3 with
                | error e => simp [h4] at h
                | ok cr3 =>
                  obtain ⟨cp3, r4⟩ := cr3
                  simp only [h4] at h
                  have hr4 := utf8CheckCont_length h4
                  split at h
                  · split at h <;> simp_all; omega
                  · simp at h

theorem utf16Escape_length {p s input p2 s2} {rest : List Nat}
    (h : utf16Escape p s input = .ok (p2, s2, rest)) :
    rest.length + 4 = input.length := by
  simp only [utf16Escape] at h
  cases e3 : hexDigit input with
  | error e => simp [e3] at h
  | ok v3 =>
    obtain ⟨h3, i1⟩ := v3
    simp only [e3] at h
    cases e2 : hexDigit i1 with
    | error e => simp [e2] at h
    | ok v2 =>
      obtain ⟨h2', i2⟩ := v2
      simp only [e2] at h
      cases e1 : hexDigit i2 with
      | error e => simp [e1] at h
      | ok v1 =>
        obtain ⟨h1', i3⟩ := v1
        simp only [e1] at h
        cases e0 : hexDigit i3 with
        | error e => simp [e0] at h
        | ok v0 =>
          obtain ⟨h0, i4⟩ := v0
          simp only [e0] at h
          have l3 := hexDigit_length e3
          have l2 := hexDigit_length e2
          have l1 := hexDigit_length e1
          have l0 := hexDigit_length e0
          have hri : rest = i4 := by
            repeat' split at h
            all_goals simp_all
          have hlen : rest.length = i4.length := by rw [hri]
          omega

/-- src/cj.c `parse_string` main loop (`while (!eat(p, '"')) ...`):
decodes string items into the accumulator `s`, threading the pending
high-surrogate slot; stops after consuming the closing quote, returning
the pending slot, the accumulated bytes and the remaining input.  The
loop consumes at least one byte per iteration, so the fuel
`input.length + 1` supplied by `parseString` is never exhausted; fuel
exhaustion surfaces as the otherwise-unreachable `.readError`. -/
def parseStringGo (fuel : Nat) (pending : Option Nat) (s : List Nat)
    (input : List Nat) :
    Except CJParseResult (Option Nat × List Nat × List Nat) :=
  match fuel with
  | 0 => .error .readError
  | fuel + 1 =>
    match input with
    | [] => .error .syntaxError
    | 34 :: rest => .ok (pending, s, rest)
    | 92 :: 117 :: rest2 =>
      (match utf16Escape pending s rest2 with
      | .error e => .error e
      | .ok (p2, s2, rest3) => parseStringGo fuel p2 s2 rest3)
    | 92 :: rest =>
      (match readEscapedCodepoint rest with
      | .error e => .error e
      | .ok (cp, rest2) =>
        match flushPending pending s with
        | .error e => .error e
        | .ok s1 =>
          match pushCodepoint s1 cp with
          | .error e => .error e
          | .ok s2 => parseStringGo fuel none s2 rest2)
    | input =>
      match readUtf8Codepoint input with
      | .error e => .error e
      | .ok (cp, rest2) =>
        match flushPending pending s with
        | .error e => .error e
        | .ok s1 =>
          match pushCodepoint s1 cp with
          | .error e => .error e
          | .ok s2 => parseStringGo fuel none s2 rest2

/-- src/cj.c `parse_string`: run the loop from an empty pending slot and
empty contents, flush a residual pending surrogate verbatim, append the
NUL terminator and shrink; the recorded length excludes the terminator. -/
def parseString (input : List Nat) :
    Except CJParseResult (CJString × List Nat) :=
  match parseStringGo (input.length + 1) none [] input with
  | .error e => .error e
  | .ok (pending, s, rest) =>
    match flushPending pending s with
    | .error e => .error e
    | .ok s =>
      let s := pushChar s 0
      .ok ({ length := s.length - 1, chars := s }, rest)

/-! ## Number lexer (src/cj.c lines 534-658)

The scratch buffer `char data[26]` is a `List Nat` of length 26; the four
bytes past the 22 initialized ones are indeterminate in C and modelled as
0 (they are always overwritten by `write_exp` before `strtod` reads the
buffer).  The C `int` fields are modelled as `Int` (the C source carries
a `TODO handle potential overflows`; no claim exercises an overflowing
exponent accumulator). -/

/-- src/cj.c `NumParser`: scratch state for building the canonical
`±DDDDDDDDDDDDDDDDDDDe±DDD` form handed to `strtod`. -/
structure NumParser where
  data : List Nat
  index : Nat
  exp : Int
  exp_sign : Int
  exp_add : Int
deriving DecidableEq

/-- src/cj.c `EXP_START`. -/
def EXP_START : Nat := 20

/-- src/cj.c `init_num_parser`: the buffer starts as
`"+0000000000000000000e+"` (22 bytes) with four indeterminate bytes. -/
def initNumParser : NumParser :=
  { data := 43 :: List.replicate 19 48 ++ [101, 43, 0, 0, 0, 0]
    index := 1
    exp := 0
    exp_sign := 1
    exp_add := -19 }

/-- src/cj.c `set_sign`. -/
def setSign (np : NumParser) (sign : Nat) : NumParser :=
  { np with data := np.data.set 0 sign }

/-- src/cj.c `add_digit`: integer-part digits; skips a leading zero,
stores at most 19 significant digits and always bumps `exp_add`. -/
def addDigit (np : NumParser) (digit : Nat) : NumParser :=
  if np.index = 1 ∧ digit = 48 then
    { np with exp_add := np.exp_add - 1 }
  else
    let np :=
      if np.index < EXP_START then
        { np with data := np.data.set np.index digit, index := np.index + 1 }
      else np
    { np with exp_add := np.exp_add + 1 }

/-- src/cj.c `add_digit_frac`: fraction digits; same as `add_digit` but
without the trailing `exp_add` bump. -/
def addDigitFrac (np : NumParser) (digit : Nat) : NumParser :=
  if np.index = 1 ∧ digit = 48 then
    { np with exp_add := np.exp_add - 1 }
  else
    if np.index < EXP_START then
      { np with data := np.data.set np.index digit, index := np.index + 1 }
    else np

/-- src/cj.c `calc_exp`: the decimal exponent, clamped so that any
magnitude beyond 308 saturates to the sentinel ±999. -/
def calcExp (np : NumParser) : Int :=
  let c := np.exp * np.exp_sign + np.exp_add
  if c < -308 then -999
  else if c > 308 then 999
  else c

/-- src/cj.c `add_exp`: accumulate an explicit exponent digit. -/
def addExp (np : NumParser) (digit : Nat) : NumParser :=
  { np with exp := np.exp * 10 + ((digit : Int) - 48) }

/-- src/cj.c `write_exp`: write `e`, the exponent sign and three decimal
digits of the clamped exponent, then the NUL terminator. -/
def writeExp (np : NumParser) : NumParser :=
  let calcE := calcExp np
  let data := np.data.set 20 101
  let (data, calcE) := if calcE < 0 then (data.set 21 45, -calcE) else (data, calcE)
  let c := calcE.toNat
  { np with data :=
      (((data.set 22 (c / 100 + 48)).set 23 (c / 10 % 10 + 48)).set 24
        (c % 10 + 48)).set 25 0 }

/-- src/cj.c `is_digit`: false at EOF, otherwise an ASCII-digit test. -/
def isDigit (input : List Nat) : Bool :=
  match input with
  | c :: _ => 48 ≤ c ∧ c ≤ 57
  | [] => false

/-- The `do { consumer(np, take_unchecked(p)); } while (is_digit(p))`
loop of src/cj.c `require_digits`, entered with the first digit `c`
already taken. -/
def digitsGo (f : NumParser → Nat → NumParser) (np : NumParser) (c : Nat)
    (input : List Nat) : NumParser × List Nat :=
  let np := f np c
  match input with
  | d :: rest =>
    if 48 ≤ d ∧ d ≤ 57 then digitsGo f np d rest else (np, input)
  | [] => (np, [])

/-- src/cj.c `require_digits`: at least one digit, folded through the
consumer. -/
def requireDigits (f : NumParser → Nat → NumParser) (np : NumParser)
    (input : List Nat) : Except CJParseResult (NumParser × List Nat) :=
  match input with
  | c :: rest =>
    if 48 ≤ c ∧ c ≤ 57 then .ok (digitsGo f np c rest)
    else .error .syntaxError
  | [] => .error .syntaxError

/-- Decimal value of a run of ASCII digit bytes (most significant
first). -/
def digitsVal (l : List Nat) : Nat :=
  l.foldl (fun a c => a * 10 + (c - 48)) 0

/-- Smallest magnitude that C `strtod` turns into ±infinity: the
round-to-nearest boundary of IEEE-754 binary64, `2^1024 - 2^970`
(an integer). -/
def strtodInfNum : Nat := 2 ^ 1024 - 2 ^ 970

/-- Reciprocal of the largest magnitude that C `strtod` turns into 0:
half the smallest subnormal is `2^-1075`. -/
def strtodZeroDen : Nat := 2 ^ 1075

/-- Modelled from the spec and the C standard: `strtod` applied to the
canonical `±DDDDDDDDDDDDDDDDDDDe±DDD` buffer that `write_exp` produces
(sign byte, 19 mantissa digits, `e`, sign byte, 3 exponent digits, NUL).
The decimal value `±mant·10^±e3` is computed exactly as the fraction
`num/den`; magnitudes at or beyond the binary64 rounding boundary give
±infinity, magnitudes below half the smallest subnormal give 0, and
in-range values are kept as exact rationals (rounding to the nearest
double is abstracted away). -/
def strtodModel (data : List Nat) : DoubleVal :=
  let neg : Bool := data.getD 0 0 = 45
  let mant : Nat := digitsVal ((data.drop 1).take 19)
  let eneg : Bool := data.getD 21 0 = 45
  let e3 : Nat :=
    (data.getD 22 48 - 48) * 100 + (data.getD 23 48 - 48) * 10 +
      (data.getD 24 48 - 48)
  let num : Nat := if eneg then mant else mant * 10 ^ e3
  let den : Nat := if eneg then 10 ^ e3 else 1
  if num ≥ strtodInfNum * den then (if neg then .negInf else .posInf)
  else if num * strtodZeroDen < den then .finite 0
  else .finite (mkRat (if neg then -(num : Int) else (num : Int)) den)

/-- src/cj.c `parse_number`: sign, integer part (`0` or a nonzero-led
digit run), optional fraction, optional exponent; then `write_exp` and
the `strtod` conversion. -/
def parseNumber (input : List Nat) :
    Except CJParseResult (CJValue × List Nat) :=
  let np := initNumParser
  -- negative sign
  let (np, input) :=
    if check input 45 then (setSign np 45, input.tail)
    else (setSign np 43, input)
  -- integer part
  match (if check input 48 then .ok (np, input.tail)
         else requireDigits addDigit np input :
         Except CJParseResult (NumParser × List Nat)) with
  | .error e => .error e
  | .ok (np, input) =>
    -- fraction part
    match (if check input 46 then requireDigits addDigitFrac np input.tail
           else .ok (np, input) :
           Except CJParseResult (NumParser × List Nat)) with
    | .error e => .error e
    | .ok (np, input) =>
      -- exponent part
      match (match input with
             | c :: rest =>
               if c = 101 ∨ c = 69 then
                 let (np, rest) :=
                   if check rest 43 then (np, rest.tail)
                   else if check rest 45 then
                     ({ np with exp_sign := -1 }, rest.tail)
                   else (np, rest)
                 requireDigits addExp np rest
               else .ok (np, input)
             | [] => .ok (np, input) :
             Except CJParseResult (NumParser × List Nat)) with
      | .error e => .error e
      | .ok (np, input) =>
        let np := writeExp np
        .ok (.number (strtodModel np.data), input)

/-! ## Recursive-descent parser (src/cj.c lines 494-532 and 660-734)

`parse` recurses through `parse_array`/`parse_object`/`parse_member`;
the recursion is made total with an explicit fuel argument, decremented
on the mutual calls.  Fuel exhaustion surfaces as `.readError`, which is
otherwise unreachable in this reader model (the string reader never
fails), and the fuel supplied by `cjParse` is large enough that it is
never reached.  `depth` is the value of `p->depth` on entry to `parse`,
before the increment. -/

/-- src/cj.h `CJ_MAX_DEPTH`. -/
def CJ_MAX_DEPTH : Nat := 1024

mutual

/-- src/cj.c `parse`: depth check, whitespace, dispatch on the lookahead
byte, trailing whitespace. -/
def parseV (fuel : Nat) (depth : Nat) (input : List Nat) :
    Except CJParseResult (CJValue × List Nat) :=
  match fuel with
  | 0 => .error .readError
  | fuel + 1 =>
    if depth + 1 = CJ_MAX_DEPTH then .error .tooMuchNesting
    else
      let input := skipWs input
      match (if check input 45 || isDigit input then parseNumber input
             else
               match input with
               | 116 :: rest =>
                 (match require rest 114 with
                  | .error e => .error e
                  | .ok rest =>
                    match require rest 117 with
                    | .error e => .error e
                    | .ok rest =>
                      match require rest 101 with
                      | .error e => .error e
                      | .ok rest => .ok (.boolean true, rest))
               | 102 :: rest =>
                 (match require rest 97 with
                  | .error e => .error e
                  | .ok rest =>
                    match require rest 108 with
                    | .error e => .error e
                    | .ok rest =>
                      match require rest 115 with
                      | .error e => .error e
                      | .ok rest =>
                        match require rest 101 with
                        | .error e => .error e
                        | .ok rest => .ok (.boolean false, rest))
               | 110 :: rest =>
                 (match require rest 117 with
                  | .error e => .error e
                  | .ok rest =>
                    match require rest 108 with
                    | .error e => .error e
                    | .ok rest =>
                      match require rest 108 with
                      | .error e => .error e
                      | .ok rest => .ok (.null, rest))
               | 34 :: rest =>
                 (match parseString rest with
                  | .error e => .error e
                  | .ok (s, rest) => .ok (.string s, rest))
               | 91 :: rest =>
                 (match parseArray fuel (depth + 1) rest with
                  | .error e => .error e
                  | .ok (es, rest) => .ok (.array es, rest))
               | 123 :: rest =>
                 (match parseObject fuel (depth + 1) rest with
                  | .error e => .error e
                  | .ok (ms, rest) => .ok (.object ms, rest))
               | _ => .error .syntaxError :
             Except CJParseResult (CJValue × List Nat)) with
      | .error e => .error e
      | .ok (v, rest) => .ok (v, skipWs rest)
termination_by structural fuel

/-- src/cj.c `parse_array` (the `[` has been consumed by `parse`):
whitespace, empty check, comma-separated elements, closing `]`,
shrink-to-fit (a no-op on lists). -/
def parseArray (fuel : Nat) (depth : Nat) (input : List Nat) :
    Except CJParseResult (List CJValue × List Nat) :=
  match fuel with
  | 0 => .error .readError
  | fuel + 1 =>
    let input := skipWs input
    if check input 93 then
      match require input 93 with
      | .error e => .error e
      | .ok rest => .ok ([], rest)
    else
      match parseArrayElems fuel depth [] input with
      | .error e => .error e
      | .ok (es, rest) =>
        match require rest 93 with
        | .error e => .error e
        | .ok rest => .ok (es, rest)
termination_by structural fuel

/-- The `do { parse(...) } while (eat(p, ','))` element loop of
src/cj.c `parse_array`. -/
def parseArrayElems (fuel : Nat) (depth : Nat) (acc : List CJValue)
    (input : List Nat) :
    Except CJParseResult (List CJValue × List Nat) :=
  match fuel with
  | 0 => .error .readError
  | fuel + 1 =>
    match parseV fuel depth input with
    | .error e => .error e
    | .ok (v, rest) =>
      match rest with
      | 44 :: rest2 => parseArrayElems fuel depth (acc ++ [v]) rest2
      | _ => .ok (acc ++ [v], rest)
termination_by structural fuel

/-- src/cj.c `parse_member`: whitespace, quoted key, whitespace, `:`,
value. -/
def parseMember (fuel : Nat) (depth : Nat) (input : List Nat) :
    Except CJParseResult ((CJString × CJValue) × List Nat) :=
  match fuel with
  | 0 => .error .readError
  | fuel + 1 =>
    let input := skipWs input
    match require input 34 with
    | .error e => .error e
    | .ok rest =>
      match parseString rest with
      | .error e => .error e
      | .ok (key, rest) =>
        let rest := skipWs rest
        match require rest 58 with
        | .error e => .error e
        | .ok rest =>
          match parseV fuel depth rest with
          | .error e => .error e
          | .ok (v, rest) => .ok ((key, v), rest)
termination_by structural fuel

/-- src/cj.c `parse_object` (the `{` has been consumed by `parse`):
whitespace, empty check, comma-separated members, closing `}`,
shrink-to-fit (a no-op on lists). -/
def parseObject (fuel : Nat) (depth : Nat) (input : List Nat) :
    Except CJParseResult (List (CJString × CJValue) × List Nat) :=
  match fuel with
  | 0 => .error .readError
  | fuel + 1 =>
    let input := skipWs input
    if check input 125 then
      match require input 125 with
      | .error e => .error e
      | .ok rest => .ok ([], rest)
    else
      match parseObjectMembers fuel depth [] input with
      | .error e => .error e
      | .ok (ms, rest) =>
        match require rest 125 with
        | .error e => .error e
        | .ok rest => .ok (ms, rest)
termination_by structural fuel

/-- The `do { parse_member(...) } while (eat(p, ','))` member loop of
src/cj.c `parse_object`. -/
def parseObjectMembers (fuel : Nat) (depth : Nat)
    (acc : List (CJString × CJValue)) (input : List Nat) :
    Except CJParseResult (List (CJString × CJValue) × List Nat) :=
  match fuel with
  | 0 => .error .readError
  | fuel + 1 =>
    match parseMember fuel depth input with
    | .error e => .error e
    | .ok (m, rest) =>
      match rest with
      | 44 :: rest2 => parseObjectMembers fuel depth (acc ++ [m]) rest2
      | _ => .ok (acc ++ [m], rest)
termination_by structural fuel

end

/-- src/cj.c `cj_parse` with the string reader delivering `input`: the
cursor starts on the one-byte `initial_buffer` holding a space, parses
the root value, and requires EOF afterwards.  `.ok v` models
`CJ_SUCCESS` with `*out = v`; `.error r` models the result code `r`
after the internal `cj_free` of the partial tree. -/
def cjParse (input : List Nat) : Except CJParseResult CJValue :=
  match parseV (2 * input.length + 4) 0 (32 :: input) with
  | .error r => .error r
  | .ok (v, rest) => if rest.isEmpty then .ok v else .error .syntaxError

/-! ## The allocator-facing layer (src/cj.c lines 161-291)

The generic growable container is embedded here with an explicit
allocation-tracking state, to settle the claims about allocation
behaviour.  An allocation is identified by a `Nat` id; `Option Nat`
models the C pointer (with `none` for NULL).  The allocator callback is
a state-passing function mirroring the `CJAllocator` contract of
src/cj.h: fresh allocation when given no pointer, free when given size
0, resize otherwise; `none` as result models allocation failure. -/

/-- State of the allocation-tracking test allocator: the next fresh id
and the ids currently live. -/
structure AllocState where
  next : Nat
  live : List Nat
deriving DecidableEq

/-- The allocation-tracking test allocator (always succeeds): fresh id
on allocation, removal from the live list on free, same id on resize. -/
def countingAllocate (a : AllocState) (ptr : Option Nat) (size : Nat) :
    AllocState × Option Nat :=
  match ptr with
  | none => ({ next := a.next + 1, live := a.next :: a.live }, some a.next)
  | some p =>
    if size = 0 then ({ a with live := a.live.erase p }, none)
    else (a, some p)

/-- An allocator that refuses every request, as in an
allocation-failure-injection test. -/
def failAllocate : Unit → Option Nat → Nat → Unit × Option Nat :=
  fun _ _ _ => ((), none)

/-- src/cj.c `alloc`: call the injected allocator and throw on failure.
The source passes `CJ_SYNTAX_ERROR` to `error` here (cj.c line 164),
not `CJ_OUT_OF_MEMORY`. -/
def alloc {α : Type} (allocate : α → Option Nat → Nat → α × Option Nat)
    (st : α) (ptr : Option Nat) (size : Nat) :
    Except CJParseResult (α × Nat) :=
  match allocate st ptr size with
  | (_, none) => .error .syntaxError
  | (st, some r) => .ok (st, r)

/-- src/cj.c `dealloc`: free via the allocator, except on NULL. -/
def dealloc {α : Type} (allocate : α → Option Nat → Nat → α × Option Nat)
    (st : α) (ptr : Option Nat) : α :=
  match ptr with
  | none => st
  | some p => (allocate st p 0).1

/-- src/cj.c `GenericContainer` together with the `len`/`ptr` slice it
writes through: capacity, logical length, backing pointer. -/
structure GenericContainer where
  cap : Nat
  len : Nat
  ptr : Option Nat
deriving DecidableEq

/-- src/cj.c `INITIAL_CAPACITY`. -/
def INITIAL_CAPACITY : Nat := 8

/-- `SIZE_MAX` with `size_t` modelled as 64 bits. -/
def SIZE_MAX : Nat := 2 ^ 64 - 1

/-- src/cj.c `container_init`: slice starts empty with a NULL pointer,
then the initial backing allocation is made. -/
def containerInit {α : Type}
    (allocate : α → Option Nat → Nat → α × Option Nat) (st : α)
    (child_size : Nat) : Except CJParseResult (α × GenericContainer) :=
  match alloc allocate st none (INITIAL_CAPACITY * child_size) with
  | .error e => .error e
  | .ok (st, p) => .ok (st, { cap := INITIAL_CAPACITY, len := 0, ptr := some p })

/-- src/cj.c `container_add_one`: grow by doubling when full, with the
overflow guard raising `CJ_OUT_OF_MEMORY`; then bump the length. -/
def containerAddOne {α : Type}
    (allocate : α → Option Nat → Nat → α × Option Nat) (st : α)
    (c : GenericContainer) (child_size : Nat) :
    Except CJParseResult (α × GenericContainer) :=
  if c.cap = c.len then
    if c.cap > SIZE_MAX / (child_size * 2) then .error .outOfMemory
    else
      match alloc allocate st c.ptr (c.cap * child_size * 2) with
      | .error e => .error e
      | .ok (st, p) =>
        .ok (st, { cap := c.cap * 2, len := c.len + 1, ptr := some p })
  else .ok (st, { c with len := c.len + 1 })

/-- src/cj.c `container_shrink`: release the backing allocation entirely
and record NULL when the logical length is 0, else shrink to fit. -/
def containerShrink {α : Type}
    (allocate : α → Option Nat → Nat → α × Option Nat) (st : α)
    (c : GenericContainer) (child_size : Nat) :
    Except CJParseResult (α × GenericContainer) :=
  if c.len = 0 then
    .ok (dealloc allocate st c.ptr, { c with ptr := none })
  else
    match alloc allocate st c.ptr (c.len * child_size) with
    | .error e => .error e
    | .ok (st, p) => .ok (st, { c with ptr := some p })

/-! ## Helper lemmas for the claims -/

theorem land128_eq_zero {c : Nat} (h : c < 128) : c &&& 128 = 0 := by
  have ht : c.testBit 7 = false := Nat.testBit_lt_two_pow (by norm_num; omega)
  have := Nat.and_two_pow c 7
  norm_num [ht] at this
  exact this

/-- Any unescaped byte below 0x20 at the head of the string loop's input
is rejected with a syntax error, whatever the pending slot, the
accumulated bytes and the rest of the input. -/
theorem parseStringGo_ctrl_error {c : Nat} (hc : c < 32) (fuel : Nat)
    (pending : Option Nat) (s rest : List Nat) :
    parseStringGo (fuel + 1) pending s (c :: rest) = .error .syntaxError := by
  interval_cases c <;> simp +decide [parseStringGo, readUtf8Codepoint]

/-- The cons shape of `cjParse`'s fuel argument. -/
theorem cjParse_fuel (input : List Nat) :
    2 * input.length + 4 = (2 * input.length + 3) + 1 := rfl

/-- Members accumulated by the object-member loop extend the accumulator
in order: the result list is the accumulator followed by the members
parsed from the input, in source order, with nothing removed or
merged. -/
theorem parseObjectMembers_append :
    ∀ (fuel depth : Nat) (acc : List (CJString × CJValue))
      (input : List Nat) ms rest,
      parseObjectMembers fuel depth acc input = .ok (ms, rest) →
      ∃ suffix, ms = acc ++ suffix := by
  intro fuel
  induction fuel with
  | zero =>
    intro depth acc input ms rest h
    simp [parseObjectMembers] at h
  | succ fuel ih =>
    intro depth acc input ms rest h
    simp only [parseObjectMembers] at h
    cases hm : parseMember fuel depth input with
    | error e => simp [hm] at h
    | ok mr =>
      obtain ⟨m, rest1⟩ := mr
      simp only [hm] at h
      split at h
      · obtain ⟨suf, hsuf⟩ := ih depth (acc ++ [m]) _ ms rest h
        exact ⟨[m] ++ suf, by simp [hsuf]⟩
      · simp at h
        obtain ⟨⟨rfl, -⟩, -⟩ := h
        exact ⟨[m], rfl⟩

/-! ## The claims -/

/-- C1: the claim says an allocator failure makes `cj_parse` return
`CJ_OUT_OF_MEMORY`, and src/cj.h documents `CJ_OUT_OF_MEMORY` as "ran
out of memory while parsing"; but `alloc` (src/cj.c line 164) raises
`CJ_SYNTAX_ERROR` whenever the injected allocator returns NULL, at every
allocation point alike; in particular the very first allocation of a
parse of `[]` (the initial 8-element array buffer made by
`container_init`) already surfaces as `CJ_SYNTAX_ERROR`, which is a
different result code than `CJ_OUT_OF_MEMORY`. -/
theorem claim_C1 :
    (∀ (st : Unit) (ptr : Option Nat) (size : Nat),
      alloc failAllocate st ptr size = .error .syntaxError) ∧
    (∀ child_size : Nat,
      containerInit failAllocate () child_size = .error .syntaxError) ∧
    CJParseResult.syntaxError ≠ CJParseResult.outOfMemory := by
  refine ⟨fun st ptr size => rfl, fun cs => rfl, by decide⟩

/-- C2 (counterexample): on the input `"\uD800"` (an unpaired high
surrogate escape at end of string) `cj_parse` neither fails with
`CJ_SYNTAX_ERROR` nor yields a string containing the replacement
character U+FFFD (UTF-8 `EF BF BD`): it succeeds with the string bytes
`ED A0 80`. -/
theorem claim_C2_counterexample :
    cjParse [34, 92, 117, 68, 56, 48, 48, 34] =
      .ok (.string { length := 3, chars := [237, 160, 128, 0] }) ∧
    cjParse [34, 92, 117, 68, 56, 48, 48, 34] ≠ .error .syntaxError ∧
    ¬ [239, 191, 189] <:+: [237, 160, 128, 0] := by
  refine ⟨by decide, by decide, by decide⟩

/-- C2 (amended): on the input `"\uD800"` `cj_parse` succeeds and the
unpaired high surrogate is emitted verbatim as its 3-byte WTF-8 encoding
`ED A0 80` — the residual pending surrogate at string end is flushed
as-is (`push_codepoint` of the surrogate value itself) before the string
is finalized, neither replaced by U+FFFD nor rejected. -/
theorem claim_C2 :
    cjParse [34, 92, 117, 68, 56, 48, 48, 34] =
      .ok (.string { length := 3, chars := [237, 160, 128, 0] }) ∧
    pushCodepointUnchecked [] 0xD800 = [237, 160, 128] ∧
    flushPending (some 0xD800) [] = .ok [237, 160, 128] := by
  refine ⟨by decide, by decide, by decide⟩

/-- C4: on the input `"𐀀"` `cj_parse` succeeds with a single
string whose bytes are exactly the 4-byte UTF-8 encoding of U+10000
(`F0 90 80 80` plus the NUL terminator): the high surrogate is buffered
pending, the low surrogate is combined with it via the standard
surrogate formula into the scalar 0x10000 ≥ U+10000, and that scalar is
emitted as UTF-8. -/
theorem claim_C4 :
    cjParse [34, 92, 117, 68, 56, 48, 48, 92, 117, 68, 67, 48, 48, 34] =
      .ok (.string { length := 4, chars := [240, 144, 128, 128, 0] }) ∧
    ((((0xD800 &&& 0x3FF) <<< 10) + 0x10000) ||| (0xDC00 &&& 0x3FF))
      = 0x10000 ∧
    pushCodepointUnchecked [] 0x10000 = [240, 144, 128, 128] := by
  refine ⟨by decide, by decide, by decide⟩

set_option maxRecDepth 100000 in
/-- C5: `cj_parse` on `1e400` succeeds with the number value positive
infinity (not NaN): `calc_exp` clamps any decimal exponent beyond ±308
to the sentinel ±999, and the final string-to-double conversion turns
the sentinel form into infinity. -/
theorem claim_C5 :
    cjParse [49, 101, 52, 48, 48] = .ok (.number .posInf) ∧
    cjParse [49, 101, 52, 48, 48] ≠ .ok (.number .nan) ∧
    (∀ np : NumParser,
      308 < np.exp * np.exp_sign + np.exp_add → calcExp np = 999) ∧
    (∀ np : NumParser,
      np.exp * np.exp_sign + np.exp_add < -308 → calcExp np = -999) := by
  refine ⟨by decide, by decide, ?_, ?_⟩
  · intro np h
    have h1 : ¬(np.exp * np.exp_sign + np.exp_add < -308) := by omega
    simp [calcExp, h1, h]
  · intro np h
    simp [calcExp, h]

/-- C5 witness: the clamp conjuncts applied at the concrete state that
parsing `1e400` produces (`exp = 400`, `exp_add = -18`). -/
theorem claim_C5_witness :
    (308 : Int) < 400 * 1 + (-18) ∧
    calcExp { data := [], index := 2, exp := 400, exp_sign := 1,
              exp_add := -18 } = 999 := by
  refine ⟨by decide, ?_⟩
  exact claim_C5.2.2.1
    { data := [], index := 2, exp := 400, exp_sign := 1, exp_add := -18 }
    (by decide)

set_option maxRecDepth 100000 in
/-- C6: `cj_parse` on `{"a":1,"a":2}` succeeds with an object of exactly
two members, both keyed `"a"`, in source order with values 1 then 2; and
in general the member loop only ever appends to the member list, so
members appear in insertion order and duplicate keys are kept without
deduplication or last-wins merging. -/
theorem claim_C6 :
    cjParse [123, 34, 97, 34, 58, 49, 44, 34, 97, 34, 58, 50, 125] =
      .ok (.object
        [({ length := 1, chars := [97, 0] }, .number (.finite 1)),
         ({ length := 1, chars := [97, 0] }, .number (.finite 2))]) ∧
    (∀ (fuel depth : Nat) (acc : List (CJString × CJValue))
       (input : List Nat) ms rest,
       parseObjectMembers fuel depth acc input = .ok (ms, rest) →
       ∃ suffix, ms = acc ++ suffix) := by
  exact ⟨by decide, parseObjectMembers_append⟩

set_option maxRecDepth 100000 in
/-- C6 witness: the append property applied to the concrete member loop
run of `{"a":1,"a":2}` (input after the `{`). -/
theorem claim_C6_witness :
    ∃ suffix,
      [(({ length := 1, chars := [97, 0] } : CJString),
         CJValue.number (.finite 1)),
       ({ length := 1, chars := [97, 0] }, CJValue.number (.finite 2))] =
      ([] : List (CJString × CJValue)) ++ suffix := by
  exact claim_C6.2 20 1 []
    [34, 97, 34, 58, 49, 44, 34, 97, 34, 58, 50, 125] _ [125] (by decide)

/-- C8: `cj_parse` on `123 abc` fails with `CJ_SYNTAX_ERROR`; in
general, once the root value and trailing whitespace have been consumed,
any nonempty remainder makes `cj_parse` fail with a syntax error. -/
theorem claim_C8 :
    cjParse [49, 50, 51, 32, 97, 98, 99] = .error .syntaxError ∧
    (∀ (input : List Nat) v rest,
      parseV (2 * input.length + 4) 0 (32 :: input) = .ok (v, rest) →
      rest ≠ [] → cjParse input = .error .syntaxError) := by
  refine ⟨by decide, ?_⟩
  intro input v rest h hne
  simp only [cjParse, h]
  cases rest with
  | nil => exact absurd rfl hne
  | cons a l => simp

set_option maxRecDepth 100000 in
/-- C8 witness: the trailing-content rule applied at the concrete parse
of `123 abc`, whose root value consumes `123 ` leaving `abc`. -/
theorem claim_C8_witness :
    cjParse [49, 50, 51, 32, 97, 98, 99] = .error .syntaxError := by
  exact claim_C8.2 [49, 50, 51, 32, 97, 98, 99]
    (.number (.finite 123)) [97, 98, 99] (by decide) (by decide)

/-- C10: a raw byte below 0x20 inside a string literal is rejected with
`CJ_SYNTAX_ERROR` wherever it occurs: whenever the string loop's next
byte is an unescaped control byte the parse fails, and at the top level
any input whose string literal opens directly onto such a byte fails
with `CJ_SYNTAX_ERROR` (control characters reach strings only via
backslash escapes). -/
theorem claim_C10 :
    (∀ c : Nat, c < 32 → ∀ (fuel : Nat) (pending : Option Nat)
      (s rest : List Nat),
      parseStringGo (fuel + 1) pending s (c :: rest) =
        .error .syntaxError) ∧
    (∀ c : Nat, c < 32 → ∀ rest : List Nat,
      cjParse (34 :: c :: rest) = .error .syntaxError) := by
  constructor
  · exact fun c hc fuel pending s rest =>
      parseStringGo_ctrl_error hc fuel pending s rest
  · intro c hc rest
    have hlen : 2 * (34 :: c :: rest : List Nat).length + 4 =
        (2 * rest.length + 7) + 1 := by simp; omega
    simp only [cjParse, hlen]
    simp +decide [parseV, skipWs, check, isDigit, parseString]
    rw [parseStringGo_ctrl_error hc (rest.length + 1) none [] rest]

/-- C10 witness: both parts applied at the concrete control byte 0x0A (a
raw newline) inside a string. -/
theorem claim_C10_witness :
    parseStringGo 1 none [] [10, 34] = .error .syntaxError ∧
    cjParse [34, 10, 34] = .error .syntaxError := by
  exact ⟨claim_C10.1 10 (by decide) 0 none [] [34],
         claim_C10.2 10 (by decide) [34]⟩

/-! ### Nested-array inputs for the depth claim -/

/-- The input `[[[...]]]` with `n` nesting levels: `n` opening brackets
followed by `n` closing brackets. -/
def nest (n : Nat) : List Nat :=
  List.replicate n 91 ++ List.replicate n 93

/-- The value tree that parsing `nest n` produces: `n` nested arrays
with an empty array innermost. -/
def arrVal : Nat → CJValue
  | 0 => .null
  | 1 => .array []
  | n + 2 => .array [arrVal (n + 1)]

theorem nest_succ_append (n : Nat) (rest : List Nat) :
    nest (n + 1) ++ rest = 91 :: (nest n ++ (93 :: rest)) := by
  have h1 : List.replicate (n + 1) 91 = 91 :: List.replicate n 91 :=
    List.replicate_succ ..
  have h2 : List.replicate (n + 1) 93 = List.replicate n 93 ++ [93] :=
    List.replicate_succ' ..
  rw [nest, h1, h2, nest]
  simp [List.append_assoc]

/-- Evaluation of `parse` on a `[`-headed input below the depth limit:
dispatch to `parse_array` at the incremented depth. -/
theorem parseV_open_bracket (fuel d : Nat) (l : List Nat)
    (hd : d + 1 ≠ 1024) :
    parseV (fuel + 1) d (91 :: l) =
      match parseArray fuel (d + 1) l with
      | .error e => .error e
      | .ok (es, rest) => .ok (.array es, skipWs rest) := by
  simp +decide [parseV, skipWs, check, isDigit, CJ_MAX_DEPTH, hd]
  cases parseArray fuel (d + 1) l with
  | error e => rfl
  | ok p => obtain ⟨es, rest⟩ := p; rfl

/-- The initial one-space buffer of `cj_parse` is consumed by the
leading whitespace skip of `parse`. -/
theorem parseV_space (f d : Nat) (input : List Nat) :
    parseV (f + 1) d (32 :: input) = parseV (f + 1) d input := by
  simp +decide [parseV, skipWs]

/-- Parsing `n ≥ 1` nested arrays from depth `d` succeeds with the
`n`-fold nested array value when `d + n ≤ 1023`, consuming exactly the
`2n` bracket bytes. -/
theorem parse_nest_ok : ∀ (n d fuel : Nat) (rest : List Nat),
    1 ≤ n → d + n ≤ 1023 → 3 * n ≤ fuel →
    (rest = [] ∨ ∃ r, rest = 93 :: r) →
    parseV fuel d (nest n ++ rest) = .ok (arrVal n, rest) := by
  intro n
  induction n with
  | zero => intro d fuel rest h1 _ _ _; omega
  | succ m ih =>
    intro d fuel rest h1 hd hf hr
    obtain ⟨f, rfl⟩ : ∃ f, fuel = f + 1 := ⟨fuel - 1, by omega⟩
    have hskipr : skipWs rest = rest := by
      rcases hr with rfl | ⟨r, rfl⟩
      · rfl
      · simp +decide [skipWs]
    rw [nest_succ_append, parseV_open_bracket f d _ (by omega)]
    cases m with
    | zero =>
      obtain ⟨g, rfl⟩ : ∃ g, f = g + 1 := ⟨f - 1, by omega⟩
      have hnil : nest 0 = [] := rfl
      simp +decide [hnil, parseArray, skipWs, check, require, arrVal, hskipr]
    | succ k =>
      obtain ⟨g, rfl⟩ : ∃ g, f = g + 1 := ⟨f - 1, by omega⟩
      obtain ⟨h, rfl⟩ : ∃ h, g = h + 1 := ⟨g - 1, by omega⟩
      have ht := nest_succ_append k (93 :: rest)
      have hiv := ih (d + 1) h (93 :: rest) (by omega) (by omega) (by omega)
        (Or.inr ⟨rest, rfl⟩)
      have hiv2 : parseV h (d + 1) (91 :: (nest k ++ (93 :: 93 :: rest))) =
          .ok (arrVal (k + 1), 93 :: rest) := by rw [← ht]; exact hiv
      rw [ht]
      simp +decide [parseArray, parseArrayElems, skipWs, check, hiv2,
        require, arrVal, hskipr]

/-- Entering `parse` for the `j`-th further nesting level from depth `d`
with `d + 1 + j = 1024` aborts with `CJ_TOO_MUCH_NESTING`, provided at
least `j + 1` more opening brackets follow. -/
theorem parse_nest_deep : ∀ (j fuel d n : Nat) (rest : List Nat),
    d + 1 + j = 1024 → j + 1 ≤ n → 3 * j + 1 ≤ fuel →
    parseV fuel d (nest n ++ rest) = .error .tooMuchNesting := by
  intro j
  induction j with
  | zero =>
    intro fuel d n rest h1 h2 h3
    obtain ⟨f, rfl⟩ : ∃ f, fuel = f + 1 := ⟨fuel - 1, by omega⟩
    simp [parseV, CJ_MAX_DEPTH, show d + 1 = 1024 by omega]
  | succ k ih =>
    intro fuel d n rest h1 h2 h3
    obtain ⟨f, rfl⟩ : ∃ f, fuel = f + 1 := ⟨fuel - 1, by omega⟩
    obtain ⟨m, rfl⟩ : ∃ m, n = m + 1 := ⟨n - 1, by omega⟩
    rw [nest_succ_append, parseV_open_bracket f d _ (by omega)]
    obtain ⟨g, rfl⟩ : ∃ g, f = g + 1 := ⟨f - 1, by omega⟩
    obtain ⟨h, rfl⟩ : ∃ h, g = h + 1 := ⟨g - 1, by omega⟩
    obtain ⟨mm, rfl⟩ : ∃ mm, m = mm + 1 := ⟨m - 1, by omega⟩
    have ht := nest_succ_append mm (93 :: rest)
    have hiv := ih h (d + 1) (mm + 1) (93 :: rest) (by omega) (by omega)
      (by omega)
    have hiv2 : parseV h (d + 1) (91 :: (nest mm ++ (93 :: 93 :: rest))) =
        .error .tooMuchNesting := by rw [← ht]; exact hiv
    rw [ht]
    simp +decide [parseArray, parseArrayElems, skipWs, check, hiv2]

set_option maxRecDepth 100000 in
/-- C3: `cj_parse` succeeds on 1023 nested arrays and fails with
`CJ_TOO_MUCH_NESTING` on 1024; entering `parse` with the depth counter
at 1023 (so that the increment reaches the fixed maximum 1024) aborts
whatever the input; and sibling subtrees at the same level are
unaffected because the counter returns to the parent's value between
them (`[[[]],[[]]]`, which visits depth 3 twice, parses fine). -/
theorem claim_C3 :
    cjParse (nest 1023) = .ok (arrVal 1023) ∧
    cjParse (nest 1024) = .error .tooMuchNesting ∧
    (∀ (fuel d : Nat) (input : List Nat), d + 1 = 1024 →
      parseV (fuel + 1) d input = .error .tooMuchNesting) ∧
    cjParse [91, 91, 91, 93, 93, 44, 91, 91, 93, 93, 93] =
      .ok (.array [.array [.array []], .array [.array []]]) := by
  refine ⟨?_, ?_, ?_, by decide⟩
  · have hlen : 2 * (nest 1023).length + 4 = 4095 + 1 := by
      simp [nest]
    have h := parse_nest_ok 1023 0 (4095 + 1) [] (by omega) (by omega)
      (by omega) (Or.inl rfl)
    simp only [cjParse, hlen, parseV_space]
    simp only [List.append_nil] at h
    rw [h]
    rfl
  · have hlen : 2 * (nest 1024).length + 4 = 4099 + 1 := by
      simp [nest]
    have h := parse_nest_deep 1023 (4099 + 1) 0 1024 [] (by omega)
      (by omega) (by omega)
    simp only [cjParse, hlen, parseV_space]
    simp only [List.append_nil] at h
    rw [h]
  · intro fuel d input h
    simp [parseV, CJ_MAX_DEPTH, h]

/-- C3 witness: the depth-abort rule applied at the concrete depth 1023
(increment reaches 1024) on the empty input. -/
theorem claim_C3_witness :
    parseV 1 1023 [] = .error .tooMuchNesting := by
  exact claim_C3.2.2.1 0 1023 [] rfl

/-- C7: `cj_parse` on `[]` (resp. `{}`) succeeds with a zero-length
array (resp. object), and in the allocation layer a container whose
logical length is 0 at `container_shrink` has its initial allocation
released entirely (removed from the live set) and its backing pointer
set to the NULL sentinel rather than shrunk. -/
theorem claim_C7 :
    cjParse [91, 93] = .ok (.array []) ∧
    cjParse [123, 125] = .ok (.object []) ∧
    (∀ (a : AllocState) (cap id child_size : Nat),
      containerShrink countingAllocate a
        { cap := cap, len := 0, ptr := some id } child_size =
      .ok ({ next := a.next, live := a.live.erase id },
           { cap := cap, len := 0, ptr := none })) := by
  refine ⟨by decide, by decide, ?_⟩
  intro a cap id child_size
  rfl

/-- C7 witness: shrinking the freshly initialized empty container (the
`[]` case: one live 8-slot allocation, length 0) frees that allocation
and records the NULL sentinel. -/
theorem claim_C7_witness :
    containerShrink countingAllocate { next := 1, live := [0] }
      { cap := 8, len := 0, ptr := some 0 } 1 =
    .ok ({ next := 1, live := [] }, { cap := 8, len := 0, ptr := none }) := by
  exact claim_C7.2.2 { next := 1, live := [0] } 8 0 1

/-! ## The round-trip law (spec §8)

The serializer is not part of the core (spec §1 excludes the JSON
re-serializer as an external collaborator), so the round-trip law is
stated against an abstract grammar of value trees together with an
explicit serialization convention, both defined here.  The grammar
mirrors what the parser can construct: strings are lists of codepoints
up to U+10FFFF (surrogates included, since the decoder accepts raw WTF-8
surrogates and flushes unpaired escaped ones verbatim), and numbers are
carried in the canonical `±mant·10^(±e3)` form that the number lexer
normalizes every literal to. -/

/-- Digits of `n` in base 10 (ASCII, most significant first) accumulated
onto `acc`; any `fuel ≥ n` is enough. -/
def decDigitsAux : Nat → Nat → List Nat → List Nat
  | 0, _, acc => acc
  | fuel + 1, n, acc =>
    if n = 0 then acc else decDigitsAux fuel (n / 10) ((n % 10 + 48) :: acc)

/-- ASCII decimal digits of `n`, without leading zeros (`"0"` for 0). -/
def decDigits (n : Nat) : List Nat :=
  if n = 0 then [48] else decDigitsAux n n []

/-- ASCII hex digit (uppercase) of `n < 16`. -/
def hexCh (n : Nat) : Nat := if n < 10 then n + 48 else n + 55

/-- The escape sequence `\uXXXX` of a codepoint below 0x10000. -/
def escU (cp : Nat) : List Nat :=
  [92, 117, hexCh (cp >>> 12), hexCh ((cp >>> 8) &&& 15),
   hexCh ((cp >>> 4) &&& 15), hexCh (cp &&& 15)]

/-- The (W)UTF-8 encoding of one codepoint: exactly the bytes that
`push_codepoint_unchecked` appends for it. -/
def wtf8 (cp : Nat) : List Nat := pushCodepointUnchecked [] cp

/-- Modelled from the spec: serialization of one string codepoint, under
the fixed convention used for the round-trip law.  BMP non-surrogates
are written as `\uXXXX` escapes (this covers quotes, backslashes and
control characters uniformly), surrogate codepoints are written as their
raw 3-byte WTF-8 encoding (escaping them would let the decoder pair
them), and astral codepoints are written as an escaped surrogate
pair. -/
def serCp (cp : Nat) : List Nat :=
  if cp < 0x10000 then
    if 0xD800 ≤ cp ∧ cp ≤ 0xDFFF then wtf8 cp else escU cp
  else
    escU (0xD800 + ((cp - 0x10000) >>> 10)) ++
      escU (0xDC00 + ((cp - 0x10000) &&& 0x3FF))

/-- Serialization of a string body (the codepoints, one after another;
the surrounding quotes are added by the value serializer). -/
def serStr : List Nat → List Nat
  | [] => []
  | c :: t => serCp c ++ serStr t

/-- The byte contents the parser builds for a codepoint list: the
concatenated WTF-8 encodings. -/
def strBytes : List Nat → List Nat
  | [] => []
  | c :: t => wtf8 c ++ strBytes t

/-- A number of the value grammar, in the canonical form the number
lexer normalizes every literal to: zero, `±mant·10^(±e3)` with a
19-digit mantissa, or an infinity (the saturated conversion of an
overflowing literal). -/
inductive JNum where
  | zero
  | fin (neg : Bool) (mant e3 : Nat) (eneg : Bool)
  | inf (neg : Bool)
deriving DecidableEq

/-- Well-formed numbers: the mantissa has exactly 19 digits, the decimal
exponent is within the lexer's ±308 clamp, and the magnitude is below
the `strtod` overflow boundary (values at or beyond it are the
infinities, which the grammar represents with `JNum.inf`). -/
def wfNum : JNum → Bool
  | .zero => true
  | .fin _ mant e3 eneg =>
    decide (10 ^ 18 ≤ mant) && decide (mant < 10 ^ 19) &&
      decide (e3 ≤ 308) &&
      (eneg || decide (mant * 10 ^ e3 < strtodInfNum))
  | .inf _ => true

/-- The double that the final string-to-double conversion produces for a
well-formed number. -/
def toCJNum : JNum → DoubleVal
  | .zero => .finite 0
  | .fin neg mant e3 eneg =>
    let num : Nat := if eneg = true then mant else mant * 10 ^ e3
    let den : Nat := if eneg = true then 10 ^ e3 else 1
    .finite (mkRat (if neg = true then -(num : Int) else (num : Int)) den)
  | .inf neg => if neg = true then .negInf else .posInf

/-- Modelled from the spec: the fixed, explicit number-formatting
convention of the round-trip law.  Zero is written `0`; a finite value
is written as its 19 mantissa digits followed by `e`, an explicit
exponent sign and the exponent digits; the infinities are written
`1e999`/`-1e999` (the lexer's own out-of-range sentinel form). -/
def serNum : JNum → List Nat
  | .zero => [48]
  | .fin neg mant e3 eneg =>
    (if neg = true then [45] else []) ++ decDigits mant ++
      101 :: (if eneg = true then 45 else 43) :: decDigits e3
  | .inf neg => (if neg = true then [45] else []) ++ [49, 101, 57, 57, 57]

/-- A value tree of the JSON grammar (spec §3): strings and object keys
are lists of codepoints up to U+10FFFF. -/
inductive JVal where
  | null
  | boolean (b : Bool)
  | number (n : JNum)
  | string (cps : List Nat)
  | array (elems : List JVal)
  | object (members : List (List Nat × JVal))

mutual

/-- Well-formedness of a value tree: numbers are well-formed and every
string codepoint is at most U+10FFFF. -/
def wfJ : JVal → Bool
  | .null => true
  | .boolean _ => true
  | .number n => wfNum n
  | .string cps => cps.all (fun c => decide (c ≤ 0x10FFFF))
  | .array es => wfE es
  | .object ms => wfM ms
termination_by structural v => v

/-- Well-formedness of an element list. -/
def wfE : List JVal → Bool
  | [] => true
  | e :: t => wfJ e && wfE t
termination_by structural l => l

/-- Well-formedness of a member list. -/
def wfM : List (List Nat × JVal) → Bool
  | [] => true
  | (k, v) :: t =>
    k.all (fun c => decide (c ≤ 0x10FFFF)) && wfJ v && wfM t
termination_by structural l => l

end

mutual

/-- Nesting depth of a value tree (a scalar counts 1: the root of any
value occupies one level of the parser's depth counter). -/
def jdepth : JVal → Nat
  | .array es => 1 + jdepthE es
  | .object ms => 1 + jdepthM ms
  | _ => 1
termination_by structural v => v

/-- Maximum depth over an element list. -/
def jdepthE : List JVal → Nat
  | [] => 0
  | e :: t => max (jdepth e) (jdepthE t)
termination_by structural l => l

/-- Maximum depth over a member list. -/
def jdepthM : List (List Nat × JVal) → Nat
  | [] => 0
  | (_, v) :: t => max (jdepth v) (jdepthM t)
termination_by structural l => l

end

mutual

/-- Fuel needed by the embedded recursive-descent parser on the
serialization of a value tree. -/
def fneed : JVal → Nat
  | .array es => 2 + fneedE es
  | .object ms => 2 + fneedM ms
  | _ => 1
termination_by structural v => v

/-- Fuel needed by the element loop. -/
def fneedE : List JVal → Nat
  | [] => 0
  | e :: t => 1 + fneed e + fneedE t
termination_by structural l => l

/-- Fuel needed by the member loop. -/
def fneedM : List (List Nat × JVal) → Nat
  | [] => 0
  | (_, v) :: t => 2 + fneed v + fneedM t
termination_by structural l => l

end

mutual

/-- The `CJValue` tree that parsing the serialization of a value tree
yields: the structural image of the tree in the parser's
representation. -/
def toCJ : JVal → CJValue
  | .null => .null
  | .boolean b => .boolean b
  | .number n => .number (toCJNum n)
  | .string cps =>
    .string { length := (strBytes cps).length, chars := strBytes cps ++ [0] }
  | .array es => .array (toCJL es)
  | .object ms => .object (toCJM ms)
termination_by structural v => v

/-- Image of an element list. -/
def toCJL : List JVal → List CJValue
  | [] => []
  | e :: t => toCJ e :: toCJL t
termination_by structural l => l

/-- Image of a member list. -/
def toCJM : List (List Nat × JVal) → List (CJString × CJValue)
  | [] => []
  | (k, v) :: t =>
    ({ length := (strBytes k).length, chars := strBytes k ++ [0] }, toCJ v)
      :: toCJM t
termination_by structural l => l

end

mutual

/-- Modelled from the spec: JSON-text serialization of a value tree
(keywords, quoted strings under `serCp`'s convention, numbers under
`serNum`'s convention, comma-separated bracketed containers, no
insignificant whitespace). -/
def serV : JVal → List Nat
  | .null => [110, 117, 108, 108]
  | .boolean true => [116, 114, 117, 101]
  | .boolean false => [102, 97, 108, 115, 101]
  | .number n => serNum n
  | .string cps => 34 :: serStr cps ++ [34]
  | .array es => 91 :: serElems es ++ [93]
  | .object ms => 123 :: serMembers ms ++ [125]
termination_by structural v => v

/-- Serialization of an element list (comma-separated). -/
def serElems : List JVal → List Nat
  | [] => []
  | [e] => serV e
  | e :: t => serV e ++ 44 :: serElems t
termination_by structural l => l

/-- Serialization of a member list (comma-separated `"key":value`). -/
def serMembers : List (List Nat × JVal) → List Nat
  | [] => []
  | [(k, v)] => 34 :: serStr k ++ 34 :: 58 :: serV v
  | (k, v) :: t => 34 :: serStr k ++ 34 :: 58 :: serV v ++ 44 :: serMembers t
termination_by structural l => l

end

/-- The byte contexts a serialized value is parsed in front of: the end
of the input, or a separator/closer (`,`, `]`, `}`). -/
def goodRest (l : List Nat) : Prop :=
  l = [] ∨ ∃ t, l = 44 :: t ∨ l = 93 :: t ∨ l = 125 :: t

/-! ### Decimal digit strings -/

theorem decDigitsAux_zero (f : Nat) (acc : List Nat) :
    decDigitsAux f 0 acc = acc := by
  cases f <;> simp [decDigitsAux]

/-- The digit run produced by `decDigitsAux` on a positive input: ASCII
digits with a nonzero leading digit, reading back to the input, with the
digit count determined by the input's magnitude. -/
theorem decDigitsAux_master : ∀ (f : Nat) (n : Nat) (acc : List Nat),
    0 < n → n ≤ f →
    ∃ ds : List Nat,
      decDigitsAux f n acc = ds ++ acc ∧
      (∀ c ∈ ds, 48 ≤ c ∧ c ≤ 57) ∧
      (∃ d t, ds = d :: t ∧ 49 ≤ d ∧ d ≤ 57) ∧
      digitsVal ds = n ∧
      10 ^ (ds.length - 1) ≤ n ∧ n < 10 ^ ds.length := by
  intro f
  induction f with
  | zero => intro n acc h1 h2; omega
  | succ f ih =>
    intro n acc h1 h2
    simp only [decDigitsAux, if_neg (by omega : ¬ n = 0)]
    by_cases hn : n < 10
    · have h10 : n / 10 = 0 := by omega
      rw [h10, decDigitsAux_zero]
      refine ⟨[n % 10 + 48], rfl, ?_, ⟨n % 10 + 48, [], rfl, by omega, by omega⟩,
        ?_, by simpa using h1, by simpa using hn⟩
      · intro c hc; simp at hc; omega
      · simp [digitsVal]; omega
    · have hq1 : 0 < n / 10 := by omega
      have hq2 : n / 10 ≤ f := by omega
      obtain ⟨ds, heq, hdig, ⟨d, t, hdt, hd1, hd2⟩, hval, hlo, hhi⟩ :=
        ih (n / 10) ((n % 10 + 48) :: acc) hq1 hq2
      refine ⟨ds ++ [n % 10 + 48], by rw [heq]; simp, ?_,
        ⟨d, t ++ [n % 10 + 48], by rw [hdt]; simp, hd1, hd2⟩, ?_, ?_, ?_⟩
      · intro c hc
        rcases List.mem_append.mp hc with h | h
        · exact hdig c h
        · simp at h; omega
      · rw [digitsVal, List.foldl_append]
        have : List.foldl (fun a c => a * 10 + (c - 48)) 0 ds = n / 10 := hval
        rw [this]
        simp; omega
      · obtain ⟨k, hk⟩ : ∃ k, ds.length = k + 1 := ⟨t.length, by rw [hdt]; rfl⟩
        have e1 : (10 : Nat) ^ (k + 1) = 10 ^ k * 10 := pow_succ 10 k
        rw [hk] at hlo
        simp only [List.length_append, List.length_cons, List.length_nil, hk,
          Nat.zero_add, Nat.add_sub_cancel] at hlo ⊢
        omega
      · obtain ⟨k, hk⟩ : ∃ k, ds.length = k + 1 := ⟨t.length, by rw [hdt]; rfl⟩
        have e1 : (10 : Nat) ^ (k + 1 + 1) = 10 ^ (k + 1) * 10 :=
          pow_succ 10 (k + 1)
        rw [hk] at hhi
        simp only [List.length_append, List.length_cons, List.length_nil, hk,
          Nat.zero_add]
        omega

/-- Every byte of `decDigits n` is an ASCII digit, the run is nonempty,
and it reads back to `n`. -/
theorem decDigits_spec (n : Nat) :
    (∀ c ∈ decDigits n, 48 ≤ c ∧ c ≤ 57) ∧
    (∃ d t, decDigits n = d :: t ∧ 48 ≤ d ∧ d ≤ 57) ∧
    digitsVal (decDigits n) = n := by
  by_cases h : n = 0
  · subst h
    refine ⟨?_, ⟨48, [], by simp [decDigits], by omega, by omega⟩,
      by simp [decDigits, digitsVal]⟩
    intro c hc; simp [decDigits] at hc; omega
  · unfold decDigits
    rw [if_neg h]
    obtain ⟨ds, heq, hdig, ⟨d, t, hdt, h1, h2⟩, hval, -, -⟩ :=
      decDigitsAux_master n n [] (by omega) le_rfl
    simp only [List.append_nil] at heq
    rw [heq]
    exact ⟨hdig, ⟨d, t, hdt, by omega, h2⟩, hval⟩

/-- On a positive input the leading digit of `decDigits n` is nonzero
and the digit count matches the magnitude of `n`. -/
theorem decDigits_pos_spec (n : Nat) (hn : 0 < n) :
    (∃ d t, decDigits n = d :: t ∧ 49 ≤ d ∧ d ≤ 57) ∧
    10 ^ ((decDigits n).length - 1) ≤ n ∧ n < 10 ^ (decDigits n).length := by
  unfold decDigits
  rw [if_neg (by omega)]
  obtain ⟨ds, heq, -, hhead, -, hlo, hhi⟩ :=
    decDigitsAux_master n n [] hn le_rfl
  simp only [List.append_nil] at heq
  rw [heq]
  exact ⟨hhead, hlo, hhi⟩

/-- A 19-digit mantissa serializes to exactly 19 digit bytes. -/
theorem decDigits_len19 (mant : Nat) (h1 : 10 ^ 18 ≤ mant)
    (h2 : mant < 10 ^ 19) : (decDigits mant).length = 19 := by
  obtain ⟨⟨d, t, hdt, -, -⟩, hlo, hhi⟩ :=
    decDigits_pos_spec mant (by nlinarith [Nat.one_le_two_pow (n := 1)])
  by_contra hL
  rcases Nat.lt_or_ge (decDigits mant).length 19 with h | h
  · have : (10 : Nat) ^ (decDigits mant).length ≤ 10 ^ 18 :=
      Nat.pow_le_pow_right (by norm_num) (by omega)
    omega
  · have h20 : 20 ≤ (decDigits mant).length := by omega
    have : (10 : Nat) ^ 19 ≤ 10 ^ ((decDigits mant).length - 1) :=
      Nat.pow_le_pow_right (by norm_num) (by omega)
    omega

/-! ### Folding the digit consumers of the number lexer -/

/-- `digitsVal` of a digit run folded from an arbitrary accumulator. -/
theorem digitsVal_from (l : List Nat) :
    ∀ a : Nat, l.foldl (fun a c => a * 10 + (c - 48)) a =
      a * 10 ^ l.length + digitsVal l := by
  induction l with
  | nil => intro a; simp [digitsVal]
  | cons c t ih =>
    intro a
    have h1 := ih (a * 10 + (c - 48))
    have h2 := ih (0 * 10 + (c - 48))
    simp only [List.foldl_cons, digitsVal] at h1 h2 ⊢
    rw [h1, h2, List.length_cons, pow_succ]
    ring

/-- The `do/while` digit loop consumes exactly the digit run and folds
the consumer over it. -/
theorem digitsGo_spec (g : NumParser → Nat → NumParser) :
    ∀ (ds : List Nat) (np : NumParser) (c : Nat) (rest : List Nat),
      (∀ d ∈ ds, 48 ≤ d ∧ d ≤ 57) → isDigit rest = false →
      digitsGo g np c (ds ++ rest) = ((c :: ds).foldl g np, rest) := by
  intro ds
  induction ds with
  | nil =>
    intro np c rest hds hrest
    cases rest with
    | nil => simp [digitsGo]
    | cons d r =>
      simp only [isDigit, decide_eq_false_iff_not] at hrest
      simp [digitsGo, hrest]
  | cons e t ih =>
    intro np c rest hds hrest
    have he : 48 ≤ e ∧ e ≤ 57 := hds e (by simp)
    simp only [List.cons_append, digitsGo, if_pos he]
    exact ih (g np c) e rest (fun d hd => hds d (by simp [hd])) hrest

/-- `require_digits` on a nonempty digit run followed by a non-digit. -/
theorem requireDigits_spec (g : NumParser → Nat → NumParser)
    (c : Nat) (hc : 48 ≤ c ∧ c ≤ 57) (ds : List Nat)
    (hds : ∀ d ∈ ds, 48 ≤ d ∧ d ≤ 57) (np : NumParser) (rest : List Nat)
    (hrest : isDigit rest = false) :
    requireDigits g np (c :: ds ++ rest) =
      .ok ((c :: ds).foldl g np, rest) := by
  have h : requireDigits g np (c :: ds ++ rest) =
      if 48 ≤ c ∧ c ≤ 57 then .ok (digitsGo g np c (ds ++ rest))
      else .error .syntaxError := rfl
  rw [h, if_pos hc, digitsGo_spec g ds np c rest hds hrest]

/-- Folding `add_exp` over a digit run accumulates the run's value into
the exponent and touches nothing else. -/
theorem foldl_addExp : ∀ (ds : List Nat) (np : NumParser),
    (∀ d ∈ ds, 48 ≤ d) →
    ds.foldl addExp np =
      { np with exp := np.exp * 10 ^ ds.length + (digitsVal ds : Int) } := by
  intro ds
  induction ds with
  | nil => intro np _; simp [digitsVal]
  | cons c t ih =>
    intro np hds
    have hc : 48 ≤ c := hds c (by simp)
    rw [List.foldl_cons, ih (addExp np c) (fun d hd => hds d (by simp [hd]))]
    simp only [addExp]
    have hv : digitsVal (c :: t) = (c - 48) * 10 ^ t.length + digitsVal t := by
      rw [digitsVal, List.foldl_cons, digitsVal_from]
      simp
    rw [hv]
    have hcast : ((c : Int) - 48) = ((c - 48 : Nat) : Int) := by
      omega
    simp only [List.length_cons, pow_succ]
    push_cast
    rw [hcast]
    ring_nf

/-- Writing through an index past a prefix. -/
theorem set_append_len (l m : List Nat) (k a : Nat) :
    (l ++ m).set (l.length + k) a = l ++ m.set k a := by
  rw [List.set_append, if_neg (by omega), Nat.add_sub_cancel_left]

/-- Reading an index past a prefix. -/
theorem getD_append_len (l m : List Nat) (k d : Nat) :
    (l ++ m).getD (l.length + k) d = m.getD k d := by
  rw [List.getD_append_right _ _ _ _ (by omega), Nat.add_sub_cancel_left]

/-- Folding `add_digit` over a digit run writes the digits one after
another into the scratch buffer: from a state below the exponent area
with the buffer still zero-filled ahead, each digit lands at the current
index, the index advances, and `exp_add` is bumped once per digit. -/
theorem foldl_addDigit : ∀ (ds : List Nat) (np : NumParser)
    (pre tl : List Nat),
    (∀ d ∈ ds, 48 ≤ d ∧ d ≤ 57) →
    np.index = pre.length → 2 ≤ pre.length → pre.length + ds.length ≤ 20 →
    np.data = pre ++ List.replicate (20 - pre.length) 48 ++ tl →
    ds.foldl addDigit np =
      { data := pre ++ ds ++
          List.replicate (20 - pre.length - ds.length) 48 ++ tl,
        index := pre.length + ds.length,
        exp := np.exp, exp_sign := np.exp_sign,
        exp_add := np.exp_add + ds.length } := by
  intro ds
  induction ds with
  | nil =>
    intro np pre tl _ hidx h2 h20 hdata
    cases np
    simp_all
  | cons d t ih =>
    intro np pre tl hds hidx h2 h20 hdata
    simp only [List.length_cons] at h20
    have hd := hds d (by simp)
    have hstep : addDigit np d =
        { data := (pre ++ [d]) ++
            List.replicate (20 - (pre.length + 1)) 48 ++ tl,
          index := pre.length + 1, exp := np.exp, exp_sign := np.exp_sign,
          exp_add := np.exp_add + 1 } := by
      have hrep : ∀ n a : Nat, 0 < n →
          List.replicate n a = a :: List.replicate (n - 1) a := by
        intro n a hn
        cases n with
        | zero => omega
        | succ m => simp [List.replicate_succ]
      have hrep2 : np.data =
          pre ++ (48 :: (List.replicate (20 - pre.length - 1) 48 ++ tl)) := by
        rw [hdata, hrep (20 - pre.length) 48 (by omega)]
        simp
      have hset : np.data.set pre.length d =
          (pre ++ [d]) ++ (List.replicate (20 - pre.length - 1) 48 ++ tl) := by
        rw [hrep2]
        have h0 := set_append_len pre
          (48 :: (List.replicate (20 - pre.length - 1) 48 ++ tl)) 0 d
        simp only [Nat.add_zero, List.set_cons_zero] at h0
        simp [h0]
      simp only [addDigit, EXP_START, hidx]
      rw [if_neg (by omega), if_pos (by omega)]
      simp [hset, List.append_assoc,
        show 20 - (pre.length + 1) = 20 - pre.length - 1 from by omega]
    rw [List.foldl_cons, hstep,
      ih _ (pre ++ [d]) tl (fun x hx => hds x (by simp [hx]))
        (by simp) (by simp; omega) (by simp; omega) (by simp)]
    have hset : (20 : Nat) - (pre ++ [d]).length - t.length
        = 20 - pre.length - (t.length + 1) := by
      simp only [List.length_append, List.length_cons, List.length_nil]
      omega
    rw [hset]
    simp only [NumParser.mk.injEq, List.append_assoc, List.singleton_append,
      List.cons_append, List.length_append, List.length_cons, List.length_nil]
    refine ⟨rfl, by omega, trivial, trivial, by push_cast; ring⟩

/-- The integer-part digit run of a serialized 19-digit mantissa, folded
from the freshly signed initial state: the buffer holds the sign byte
and the 19 digits, the index sits at the exponent area, and the
`exp_add` correction is back to zero. -/
theorem requireDigits_mant (s mant : Nat) (h1 : 10 ^ 18 ≤ mant)
    (h2 : mant < 10 ^ 19) (X : List Nat) (hX : isDigit X = false) :
    requireDigits addDigit (setSign initNumParser s) (decDigits mant ++ X) =
      .ok ({ data := s :: decDigits mant ++ [101, 43, 0, 0, 0, 0],
             index := 20, exp := 0, exp_sign := 1, exp_add := 0 }, X) := by
  have hpos : 0 < mant := by
    have : (0 : Nat) < 10 ^ 18 := by positivity
    omega
  obtain ⟨hdig, -, -⟩ := decDigits_spec mant
  obtain ⟨⟨d1, ds', hdt, hd1a, hd1b⟩, -, -⟩ := decDigits_pos_spec mant hpos
  have hlen : (decDigits mant).length = 19 := decDigits_len19 mant h1 h2
  rw [hdt] at hlen
  simp only [List.length_cons] at hlen
  have hlen18 : ds'.length = 18 := by omega
  have hnp0 : setSign initNumParser s =
      { data := s :: List.replicate 19 48 ++ [101, 43, 0, 0, 0, 0],
        index := 1, exp := 0, exp_sign := 1, exp_add := -19 } := by
    simp [setSign, initNumParser]
  rw [hdt, hnp0,
    requireDigits_spec addDigit d1 ⟨by omega, hd1b⟩ ds'
      (fun d hd => hdig d (by rw [hdt]; simp [hd])) _ X hX, List.foldl_cons]
  have hstep1 : addDigit
      { data := s :: List.replicate 19 48 ++ [101, 43, 0, 0, 0, 0],
        index := 1, exp := 0, exp_sign := 1, exp_add := -19 } d1 =
      { data := (s :: [d1]) ++
          List.replicate 18 48 ++ [101, 43, 0, 0, 0, 0],
        index := 2, exp := 0, exp_sign := 1, exp_add := -18 } := by
    have hrep : List.replicate 19 48 = 48 :: List.replicate 18 48 := rfl
    simp only [addDigit, EXP_START]
    rw [if_neg (by omega), if_pos (by omega)]
    simp [hrep]
  rw [hstep1,
    foldl_addDigit ds' _ (s :: [d1]) [101, 43, 0, 0, 0, 0]
      (fun d hd => hdig d (by rw [hdt]; simp [hd])) (by simp) (by simp)
      (by simp [hlen18]) (by simp)]
  simp [hlen18, hdt]

/-- The explicit-exponent digit run folded through `add_exp`. -/
theorem requireDigits_exp (np : NumParser) (e3 : Nat) (rest : List Nat)
    (hrest : isDigit rest = false) :
    requireDigits addExp np (decDigits e3 ++ rest) =
      .ok ({ np with
             exp := np.exp * 10 ^ (decDigits e3).length + (e3 : Int) },
           rest) := by
  obtain ⟨hdig, ⟨d1, t, hdt, h1, h2⟩, hval⟩ := decDigits_spec e3
  rw [hdt,
    requireDigits_spec addExp d1 ⟨h1, h2⟩ t
      (fun d hd => hdig d (by rw [hdt]; simp [hd])) np rest hrest,
    foldl_addExp (d1 :: t) np
      (fun d hd => (hdig d (by rw [hdt]; exact hd)).1), ← hdt, hval]

/-- `write_exp` on a full 20-byte sign-and-mantissa prefix: the exponent
area is overwritten with `e`, the exponent sign and the three decimal
digits of the clamped exponent's magnitude, then the NUL terminator. -/
theorem writeExp_data (s : Nat) (ds : List Nat) (hlen : ds.length = 19)
    (np : NumParser) (hdata : np.data = (s :: ds) ++ [101, 43, 0, 0, 0, 0]) :
    (writeExp np).data =
      (s :: ds) ++ [101, if calcExp np < 0 then 45 else 43,
        (calcExp np).natAbs / 100 + 48, (calcExp np).natAbs / 10 % 10 + 48,
        (calcExp np).natAbs % 10 + 48, 0] := by
  have hp : (s :: ds).length = 20 := by simp [hlen]
  have hkey : ∀ (m : List Nat) (k x : Nat),
      ((s :: ds) ++ m).set (20 + k) x = (s :: ds) ++ m.set k x := by
    intro m k x
    rw [← hp, set_append_len]
  have h20 : ((s :: ds) ++ [101, 43, 0, 0, 0, 0]).set 20 101 =
      (s :: ds) ++ [101, 43, 0, 0, 0, 0] := by
    rw [(by norm_num : (20 : Nat) = 20 + 0), hkey]
    rfl
  have h21 : ((s :: ds) ++ [101, 43, 0, 0, 0, 0]).set 21 45 =
      (s :: ds) ++ [101, 45, 0, 0, 0, 0] := by
    rw [(by norm_num : (21 : Nat) = 20 + 1), hkey]
    rfl
  have hrest : ∀ (b : Nat) (x y z : Nat),
      (((((s :: ds) ++ [101, b, 0, 0, 0, 0]).set 22 x).set 23 y).set 24 z).set
          25 0 =
        (s :: ds) ++ [101, b, x, y, z, 0] := by
    intro b x y z
    rw [(by norm_num : (22 : Nat) = 20 + 2), hkey]
    show ((((s :: ds) ++ [101, b, x, 0, 0, 0]).set 23 y).set 24 z).set 25 0 = _
    rw [(by norm_num : (23 : Nat) = 20 + 3), hkey]
    show (((s :: ds) ++ [101, b, x, y, 0, 0]).set 24 z).set 25 0 = _
    rw [(by norm_num : (24 : Nat) = 20 + 4), hkey]
    show ((s :: ds) ++ [101, b, x, y, z, 0]).set 25 0 = _
    rw [(by norm_num : (25 : Nat) = 20 + 5), hkey]
    rfl
  by_cases hneg : calcExp np < 0
  · have htn : (-(calcExp np)).toNat = (calcExp np).natAbs := by omega
    simp only [writeExp, if_pos hneg, htn, hdata, h20, h21]
    rw [hrest]
  · have htn : (calcExp np).toNat = (calcExp np).natAbs := by omega
    simp only [writeExp, if_neg hneg, htn, hdata, h20]
    rw [hrest]

/-- Reading the canonical buffer back through the `strtod` model. -/
theorem strtodModel_read (s : Nat) (ds : List Nat) (hlen : ds.length = 19)
    (sgn x y z : Nat) :
    strtodModel ((s :: ds) ++ [101, sgn, x, y, z, 0]) =
      (let mant := digitsVal ds
       let e3 := (x - 48) * 100 + (y - 48) * 10 + (z - 48)
       let num := if sgn = 45 then mant else mant * 10 ^ e3
       let den := if sgn = 45 then 10 ^ e3 else 1
       if num ≥ strtodInfNum * den then
         (if s = 45 then DoubleVal.negInf else .posInf)
       else if num * strtodZeroDen < den then .finite 0
       else .finite
         (mkRat (if s = 45 then -(num : Int) else (num : Int)) den)) := by
  have hp : (s :: ds).length = 20 := by simp [hlen]
  have hkey : ∀ (k d : Nat),
      ((s :: ds) ++ [101, sgn, x, y, z, 0]).getD (20 + k) d =
        [101, sgn, x, y, z, 0].getD k d := by
    intro k d
    rw [← hp, getD_append_len]
  have g21 : ((s :: ds) ++ [101, sgn, x, y, z, 0]).getD 21 0 = sgn := by
    rw [(by norm_num : (21 : Nat) = 20 + 1), hkey]
    rfl
  have g22 : ((s :: ds) ++ [101, sgn, x, y, z, 0]).getD 22 48 = x := by
    rw [(by norm_num : (22 : Nat) = 20 + 2), hkey]
    rfl
  have g23 : ((s :: ds) ++ [101, sgn, x, y, z, 0]).getD 23 48 = y := by
    rw [(by norm_num : (23 : Nat) = 20 + 3), hkey]
    rfl
  have g24 : ((s :: ds) ++ [101, sgn, x, y, z, 0]).getD 24 48 = z := by
    rw [(by norm_num : (24 : Nat) = 20 + 4), hkey]
    rfl
  have g0 : ((s :: ds) ++ [101, sgn, x, y, z, 0]).getD 0 0 = s := rfl
  have gm : (((s :: ds) ++ [101, sgn, x, y, z, 0]).drop 1).take 19 = ds := by
    show (ds ++ [101, sgn, x, y, z, 0]).take 19 = ds
    rw [← hlen, List.take_left]
  simp only [strtodModel, g0, g21, g22, g23, g24, gm, decide_eq_true_eq]

set_option maxRecDepth 400000 in
/-- `write_exp` followed by the `strtod` model on the state reached
after lexing a serialized finite number: the in-range, nonzero value is
recovered exactly. -/
theorem numFinish (s mant e3 : Nat) (j : Int)
    (h1 : 10 ^ 18 ≤ mant) (h2 : mant < 10 ^ 19) (h3 : e3 ≤ 308)
    (hj : j = 1 ∨ j = -1)
    (hinf : j = 1 → mant * 10 ^ e3 < strtodInfNum) :
    strtodModel ((writeExp
        { data := (s :: decDigits mant) ++ [101, 43, 0, 0, 0, 0],
          index := 20, exp := (e3 : Int), exp_sign := j,
          exp_add := 0 }).data) =
      .finite (mkRat
        (if s = 45 then -(((if j = 1 then mant * 10 ^ e3 else mant : Nat)) : Int)
         else (((if j = 1 then mant * 10 ^ e3 else mant : Nat)) : Int))
        (if j = 1 then 1 else 10 ^ e3)) := by
  have hlen : (decDigits mant).length = 19 := decDigits_len19 mant h1 h2
  have hval : digitsVal (decDigits mant) = mant := (decDigits_spec mant).2.2
  have hbig : (10 : Nat) ^ 19 < strtodInfNum := by decide
  have hzpos : 0 < strtodZeroDen := Nat.pos_pow_of_pos 1075 (by norm_num)
  have he3id : (e3 / 100 + 48 - 48) * 100 + (e3 / 10 % 10 + 48 - 48) * 10 +
      (e3 % 10 + 48 - 48) = e3 := by omega
  rcases hj with rfl | rfl
  · -- positive exponent sign
    have hcalc : calcExp
        { data := (s :: decDigits mant) ++ [101, 43, 0, 0, 0, 0],
          index := 20, exp := (e3 : Int), exp_sign := 1,
          exp_add := 0 } = (e3 : Int) := by
      simp only [calcExp]
      rw [if_neg (by omega), if_neg (by omega)]
      ring
    have hnlt : ¬(calcExp
        { data := (s :: decDigits mant) ++ [101, 43, 0, 0, 0, 0],
          index := 20, exp := (e3 : Int), exp_sign := 1,
          exp_add := 0 } < 0) := by rw [hcalc]; omega
    have hnat : (calcExp
        { data := (s :: decDigits mant) ++ [101, 43, 0, 0, 0, 0],
          index := 20, exp := (e3 : Int), exp_sign := 1,
          exp_add := 0 }).natAbs = e3 := by rw [hcalc]; simp
    rw [writeExp_data s (decDigits mant) hlen _ rfl, hnat, if_neg hnlt,
      strtodModel_read s (decDigits mant) hlen 43 (e3 / 100 + 48)
        (e3 / 10 % 10 + 48) (e3 % 10 + 48)]
    have hA : 0 < mant * 10 ^ e3 :=
      Nat.mul_pos (by omega) (Nat.pos_pow_of_pos e3 (by norm_num))
    have hAZ : 0 < mant * 10 ^ e3 * strtodZeroDen := Nat.mul_pos hA hzpos
    have hinf' := hinf rfl
    have e45 : ((43 : Nat) = 45) = False := by norm_num
    simp only [hval, he3id, e45, if_false, mul_one, ge_iff_le]
    rw [if_neg (by omega), if_neg (by omega)]
    simp
  · -- negative exponent sign
    have hcalc : calcExp
        { data := (s :: decDigits mant) ++ [101, 43, 0, 0, 0, 0],
          index := 20, exp := (e3 : Int), exp_sign := -1,
          exp_add := 0 } = -(e3 : Int) := by
      simp only [calcExp]
      rw [if_neg (by omega), if_neg (by omega)]
      ring
    by_cases he0 : e3 = 0
    · subst he0
      have hnlt : ¬(calcExp
          { data := (s :: decDigits mant) ++ [101, 43, 0, 0, 0, 0],
            index := 20, exp := ((0 : Nat) : Int), exp_sign := -1,
            exp_add := 0 } < 0) := by rw [hcalc]; omega
      have hnat : (calcExp
          { data := (s :: decDigits mant) ++ [101, 43, 0, 0, 0, 0],
            index := 20, exp := ((0 : Nat) : Int), exp_sign := -1,
            exp_add := 0 }).natAbs = 0 := by rw [hcalc]; simp
      rw [writeExp_data s (decDigits mant) hlen _ rfl, hnat, if_neg hnlt,
        strtodModel_read s (decDigits mant) hlen 43 (0 / 100 + 48)
          (0 / 10 % 10 + 48) (0 % 10 + 48)]
      have hAZ : 0 < mant * strtodZeroDen := Nat.mul_pos (by omega) hzpos
      have e45 : ((43 : Nat) = 45) = False := by norm_num
      simp only [hval, he3id, e45, if_false, pow_zero, mul_one, ge_iff_le]
      rw [if_neg (by omega), if_neg (by omega)]
      simp
    · have hneg : calcExp
          { data := (s :: decDigits mant) ++ [101, 43, 0, 0, 0, 0],
            index := 20, exp := (e3 : Int), exp_sign := -1,
            exp_add := 0 } < 0 := by rw [hcalc]; omega
      have hnat : (calcExp
          { data := (s :: decDigits mant) ++ [101, 43, 0, 0, 0, 0],
            index := 20, exp := (e3 : Int), exp_sign := -1,
            exp_add := 0 }).natAbs = e3 := by rw [hcalc]; simp
      rw [writeExp_data s (decDigits mant) hlen _ rfl, hnat, if_pos hneg,
        strtodModel_read s (decDigits mant) hlen 45 (e3 / 100 + 48)
          (e3 / 10 % 10 + 48) (e3 % 10 + 48)]
      have hle : strtodInfNum ≤ strtodInfNum * 10 ^ e3 :=
        Nat.le_mul_of_pos_right _ (Nat.pos_pow_of_pos e3 (by norm_num))
      have hz1 : (10 : Nat) ^ e3 ≤ 10 ^ 308 :=
        Nat.pow_le_pow_right (by norm_num) h3
      have hz2 : (10 : Nat) ^ 308 < 10 ^ 18 * strtodZeroDen := by decide
      have hz3 : 10 ^ 18 * strtodZeroDen ≤ mant * strtodZeroDen :=
        Nat.mul_le_mul_right _ h1
      have e45 : ((45 : Nat) = 45) = True := by norm_num
      simp only [hval, he3id, e45, if_true, ge_iff_le]
      rw [if_neg (by omega), if_neg (by omega)]
      simp

theorem goodRest_isDigit {rest : List Nat} (hr : goodRest rest) :
    isDigit rest = false := by
  rcases hr with rfl | ⟨t, rfl | rfl | rfl⟩ <;> simp [isDigit]

theorem goodRest_skipWs {rest : List Nat} (hr : goodRest rest) :
    skipWs rest = rest := by
  rcases hr with rfl | ⟨t, rfl | rfl | rfl⟩ <;> simp +decide [skipWs]

set_option maxRecDepth 400000 in
/-- Parsing a serialized number under the fixed formatting convention
recovers exactly the number's double value and consumes exactly the
number's bytes. -/
theorem parseNumber_ser (jn : JNum) (hwf : wfNum jn = true)
    (rest : List Nat) (hr : goodRest rest) :
    parseNumber (serNum jn ++ rest) = .ok (.number (toCJNum jn), rest) := by
  cases jn with
  | zero =>
    have hfin : strtodModel ((writeExp (setSign initNumParser 43)).data) =
        .finite 0 := by decide
    rcases hr with rfl | ⟨t, rfl | rfl | rfl⟩ <;>
      simp [serNum, parseNumber, check, isDigit, hfin, toCJNum]
  | inf neg =>
    cases neg <;>
      rcases hr with rfl | ⟨t, rfl | rfl | rfl⟩ <;>
        simp +decide [serNum, parseNumber, check, isDigit, requireDigits,
          digitsGo, toCJNum]
  | fin neg mant e3 eneg =>
    simp only [wfNum, Bool.and_eq_true, decide_eq_true_eq,
      Bool.or_eq_true] at hwf
    obtain ⟨⟨⟨h1, h2⟩, h3⟩, h4⟩ := hwf
    have hmpos : 0 < mant := by
      have : (0 : Nat) < 10 ^ 18 := by positivity
      omega
    obtain ⟨⟨d1, ds', hdt, hd1a, hd1b⟩, -, -⟩ := decDigits_pos_spec mant hmpos
    have hrdig : isDigit rest = false := goodRest_isDigit hr
    cases neg <;> cases eneg
    · -- positive mantissa, positive exponent
      have h4' : mant * 10 ^ e3 < strtodInfNum := by
        rcases h4 with h | h
        · exact absurd h (by simp)
        · exact h
      have hser : serNum (.fin false mant e3 false) ++ rest =
          decDigits mant ++ (101 :: 43 :: (decDigits e3 ++ rest)) := by
        simp [serNum]
      have hc45 : check (decDigits mant ++
          (101 :: 43 :: (decDigits e3 ++ rest))) 45 = false := by
        rw [hdt]; simp [check]; omega
      have hc48 : check (decDigits mant ++
          (101 :: 43 :: (decDigits e3 ++ rest))) 48 = false := by
        rw [hdt]; simp [check]; omega
      have hXdig : isDigit (101 :: 43 :: (decDigits e3 ++ rest)) = false := by
        simp [isDigit]
      have hc46 : check (101 :: 43 :: (decDigits e3 ++ rest)) 46 = false := by
        simp [check]
      rw [hser]
      simp only [parseNumber, hc45, Bool.false_eq_true, if_false, hc48]
      rw [requireDigits_mant 43 mant h1 h2 _ hXdig]
      simp only [hc46, Bool.false_eq_true, if_false]
      rw [if_pos (show True ∨ (101 : Nat) = 69 from Or.inl trivial),
        if_pos (show check (43 :: (decDigits e3 ++ rest)) 43 = true from rfl)]
      simp only [List.tail_cons]
      rw [requireDigits_exp _ e3 rest hrdig]
      simp only [zero_mul, zero_add]
      rw [numFinish 43 mant e3 1 h1 h2 h3 (Or.inl rfl) (fun _ => h4')]
      simp [toCJNum]
    · -- positive mantissa, negative exponent
      have hser : serNum (.fin false mant e3 true) ++ rest =
          decDigits mant ++ (101 :: 45 :: (decDigits e3 ++ rest)) := by
        simp [serNum]
      have hc45 : check (decDigits mant ++
          (101 :: 45 :: (decDigits e3 ++ rest))) 45 = false := by
        rw [hdt]; simp [check]; omega
      have hc48 : check (decDigits mant ++
          (101 :: 45 :: (decDigits e3 ++ rest))) 48 = false := by
        rw [hdt]; simp [check]; omega
      have hXdig : isDigit (101 :: 45 :: (decDigits e3 ++ rest)) = false := by
        simp [isDigit]
      have hc46 : check (101 :: 45 :: (decDigits e3 ++ rest)) 46 = false := by
        simp [check]
      rw [hser]
      simp only [parseNumber, hc45, Bool.false_eq_true, if_false, hc48]
      rw [requireDigits_mant 43 mant h1 h2 _ hXdig]
      simp only [hc46, Bool.false_eq_true, if_false]
      rw [if_pos (show True ∨ (101 : Nat) = 69 from Or.inl trivial),
        if_neg (show ¬(check (45 :: (decDigits e3 ++ rest)) 43 = true) from
          by simp [check]),
        if_pos (show check (45 :: (decDigits e3 ++ rest)) 45 = true from rfl)]
      simp only [List.tail_cons]
      rw [requireDigits_exp _ e3 rest hrdig]
      simp only [zero_mul, zero_add]
      rw [numFinish 43 mant e3 (-1) h1 h2 h3 (Or.inr rfl)
        (fun h => absurd h (by norm_num))]
      simp [toCJNum]
    · -- negative mantissa, positive exponent
      have h4' : mant * 10 ^ e3 < strtodInfNum := by
        rcases h4 with h | h
        · exact absurd h (by simp)
        · exact h
      have hser : serNum (.fin true mant e3 false) ++ rest =
          45 :: (decDigits mant ++ (101 :: 43 :: (decDigits e3 ++ rest))) := by
        simp [serNum]
      have hXdig : isDigit (101 :: 43 :: (decDigits e3 ++ rest)) = false := by
        simp [isDigit]
      have hc46 : check (101 :: 43 :: (decDigits e3 ++ rest)) 46 = false := by
        simp [check]
      have hc48 : check (decDigits mant ++
          (101 :: 43 :: (decDigits e3 ++ rest))) 48 = false := by
        rw [hdt]; simp [check]; omega
      rw [hser]
      simp only [parseNumber]
      rw [if_pos (show check (45 :: (decDigits mant ++
        (101 :: 43 :: (decDigits e3 ++ rest)))) 45 = true from rfl)]
      simp only [List.tail_cons, hc48, Bool.false_eq_true, if_false]
      rw [requireDigits_mant 45 mant h1 h2 _ hXdig]
      simp only [hc46, Bool.false_eq_true, if_false]
      rw [if_pos (show True ∨ (101 : Nat) = 69 from Or.inl trivial),
        if_pos (show check (43 :: (decDigits e3 ++ rest)) 43 = true from rfl)]
      simp only [List.tail_cons]
      rw [requireDigits_exp _ e3 rest hrdig]
      simp only [zero_mul, zero_add]
      rw [numFinish 45 mant e3 1 h1 h2 h3 (Or.inl rfl) (fun _ => h4')]
      simp [toCJNum]
    · -- negative mantissa, negative exponent
      have hser : serNum (.fin true mant e3 true) ++ rest =
          45 :: (decDigits mant ++ (101 :: 45 :: (decDigits e3 ++ rest))) := by
        simp [serNum]
      have hXdig : isDigit (101 :: 45 :: (decDigits e3 ++ rest)) = false := by
        simp [isDigit]
      have hc46 : check (101 :: 45 :: (decDigits e3 ++ rest)) 46 = false := by
        simp [check]
      have hc48 : check (decDigits mant ++
          (101 :: 45 :: (decDigits e3 ++ rest))) 48 = false := by
        rw [hdt]; simp [check]; omega
      rw [hser]
      simp only [parseNumber]
      rw [if_pos (show check (45 :: (decDigits mant ++
        (101 :: 45 :: (decDigits e3 ++ rest)))) 45 = true from rfl)]
      simp only [List.tail_cons, hc48, Bool.false_eq_true, if_false]
      rw [requireDigits_mant 45 mant h1 h2 _ hXdig]
      simp only [hc46, Bool.false_eq_true, if_false]
      rw [if_pos (show True ∨ (101 : Nat) = 69 from Or.inl trivial),
        if_neg (show ¬(check (45 :: (decDigits e3 ++ rest)) 43 = true) from
          by simp [check]),
        if_pos (show check (45 :: (decDigits e3 ++ rest)) 45 = true from rfl)]
      simp only [List.tail_cons]
      rw [requireDigits_exp _ e3 rest hrdig]
      simp only [zero_mul, zero_add]
      rw [numFinish 45 mant e3 (-1) h1 h2 h3 (Or.inr rfl)
        (fun h => absurd h (by norm_num))]
      simp [toCJNum]

/-! ### Bit-level helpers for the string decoder -/

/-- Bitwise or of disjoint operands is addition. -/
theorem or_eq_add {i b : Nat} (hb : b < 2 ^ i) (a : Nat) :
    (2 ^ i * a) ||| b = 2 ^ i * a + b := (Nat.mul_add_lt_is_or hb a).symm

/-- Masking with `2^n - 1` (here spelled as the literals the source
uses) is reduction modulo `2^n`. -/
theorem and_mask (x n m : Nat) (hm : m = 2 ^ n - 1) :
    x &&& m = x % 2 ^ n := by
  subst hm
  exact Nat.and_pow_two_sub_one_eq_mod x n

/-- Reassembling a codepoint below 0x10000 from its four hex nibbles. -/
theorem hexAssemble (cp : Nat) (hcp : cp < 65536) :
    ((cp >>> 12) <<< 12) ||| (((cp >>> 8) &&& 15) <<< 8) |||
      (((cp >>> 4) &&& 15) <<< 4) ||| (cp &&& 15) = cp := by
  have and15 : ∀ x : Nat, x &&& 15 = x % 16 := fun x => by
    have h := and_mask x 4 15 (by norm_num)
    norm_num at h
    exact h
  rw [Nat.shiftLeft_eq, Nat.shiftLeft_eq, Nat.shiftLeft_eq,
    Nat.shiftRight_eq_div_pow, Nat.shiftRight_eq_div_pow,
    Nat.shiftRight_eq_div_pow, and15, and15, and15]
  have s1 : cp / 2 ^ 12 * 2 ^ 12 = 2 ^ 12 * (cp / 2 ^ 12) := by ring
  have hb1 : cp / 2 ^ 8 % 16 * 2 ^ 8 < 2 ^ 12 := by omega
  rw [s1, or_eq_add hb1]
  have s2 : 2 ^ 12 * (cp / 2 ^ 12) + cp / 2 ^ 8 % 16 * 2 ^ 8 =
      2 ^ 8 * (16 * (cp / 2 ^ 12) + cp / 2 ^ 8 % 16) := by ring
  have hb2 : cp / 2 ^ 4 % 16 * 2 ^ 4 < 2 ^ 8 := by omega
  rw [s2, or_eq_add hb2]
  have s3 : 2 ^ 8 * (16 * (cp / 2 ^ 12) + cp / 2 ^ 8 % 16) +
      cp / 2 ^ 4 % 16 * 2 ^ 4 =
      2 ^ 4 * (16 * (16 * (cp / 2 ^ 12) + cp / 2 ^ 8 % 16) +
        cp / 2 ^ 4 % 16) := by ring
  have hb3 : cp % 16 < 2 ^ 4 := by omega
  rw [s3, or_eq_add hb3]
  omega

/-- `hex_digit` reads back the serialized hex digit of a nibble. -/
theorem hexDigit_hexCh (n : Nat) (hn : n < 16) (rest : List Nat) :
    hexDigit (hexCh n :: rest) = .ok (n, rest) := by
  interval_cases n <;> simp [hexCh, hexDigit]

/-- `push_codepoint_unchecked` appends the codepoint's encoding. -/
theorem pushCPU_append (s : List Nat) (cp : Nat) :
    pushCodepointUnchecked s cp = s ++ wtf8 cp := by
  simp only [wtf8, pushCodepointUnchecked, pushChar]
  split_ifs <;> simp

/-- The 3-byte WTF-8 encoding of a surrogate codepoint. -/
theorem wtf8_surrogate (cp : Nat) (h1 : 55296 ≤ cp) (h2 : cp ≤ 57343) :
    wtf8 cp = [237, 128 + cp / 64 % 64, 128 + cp % 64] := by
  have b1 : 224 ||| (cp >>> 12) = 237 := by
    rw [Nat.shiftRight_eq_div_pow]
    have hdiv : cp / 2 ^ 12 = 13 := by omega
    rw [hdiv]
    decide
  have b2 : 128 ||| ((cp >>> 6) &&& 63) = 128 + cp / 64 % 64 := by
    rw [Nat.shiftRight_eq_div_pow, and_mask _ 6 63 (by norm_num),
      (by norm_num : (128 : Nat) = 2 ^ 7 * 1), or_eq_add (by omega)]
    norm_num
  have b3 : 128 ||| (cp &&& 63) = 128 + cp % 64 := by
    rw [and_mask _ 6 63 (by norm_num),
      (by norm_num : (128 : Nat) = 2 ^ 7 * 1), or_eq_add (by omega)]
    norm_num
  rw [wtf8]
  simp only [pushCodepointUnchecked, pushChar]
  rw [if_neg (by omega), if_neg (by omega), if_pos (by omega), b1, b2, b3]
  simp

/-- A WTF-8 continuation byte passes `utf8_check_cont` and shifts its
payload into the accumulator. -/
theorem utf8CheckCont_cont (cp v : Nat) (hv : v < 64) (rest : List Nat) :
    utf8CheckCont cp ((128 + v) :: rest) = .ok (64 * cp + v, rest) := by
  have h128 : (128 + v) &&& 128 ≠ 0 := by
    rw [(by omega : 128 + v = 2 ^ 7 * 1 + v),
      (by norm_num : (128 : Nat) = 2 ^ 7), Nat.and_two_pow,
      Nat.testBit_mul_pow_two_add 1 (by omega) 7]
    norm_num
  have h64 : (128 + v) &&& 64 = 0 := by
    rw [(by omega : 128 + v = 2 ^ 6 * 2 + v),
      (by norm_num : (64 : Nat) = 2 ^ 6), Nat.and_two_pow,
      Nat.testBit_mul_pow_two_add 2 (by omega) 6]
    norm_num
  have h63 : (128 + v) &&& 63 = v := by
    rw [and_mask _ 6 63 (by norm_num)]
    omega
  simp only [utf8CheckCont]
  rw [if_neg (by simp [h128, h64]), h63, Nat.shiftLeft_eq,
    (by ring : cp * 2 ^ 6 = 2 ^ 6 * cp), or_eq_add hv]
  norm_num

/-- `read_utf8_codepoint` decodes a raw surrogate's WTF-8 bytes back to
the surrogate codepoint (no surrogate rejection in the decoder). -/
theorem readUtf8_surrogate (cp : Nat) (h1 : 55296 ≤ cp) (h2 : cp ≤ 57343)
    (rest : List Nat) :
    readUtf8Codepoint ((237 : Nat) :: (128 + cp / 64 % 64) ::
      (128 + cp % 64) :: rest) = .ok (cp, rest) := by
  simp only [readUtf8Codepoint]
  rw [if_neg (by decide), if_neg (by decide),
    (by decide : (237 : Nat) &&& 127 = 109),
    utf8CheckCont_cont 109 _ (by omega) _]
  dsimp only
  rw [if_neg (by decide),
    utf8CheckCont_cont (64 * 109 + cp / 64 % 64) _ (by omega) _]
  dsimp only
  rw [if_pos (by decide)]
  simp only [overlongCheck]
  have hm : (64 * (64 * 109 + cp / 64 % 64) + cp % 64) &&& 65535 = cp := by
    rw [and_mask _ 16 65535 (by norm_num)]
    omega
  rw [hm, if_neg (by omega)]

/-- `utf16_escape` on the four serialized hex digits of a codepoint
below 0x10000: the reassembled `current` value is the codepoint. -/
theorem utf16Escape_escU (pending : Option Nat) (s : List Nat) (cp : Nat)
    (hcp : cp < 65536) (more : List Nat) :
    utf16Escape pending s
      (hexCh (cp >>> 12) :: hexCh ((cp >>> 8) &&& 15) ::
        hexCh ((cp >>> 4) &&& 15) :: hexCh (cp &&& 15) :: more) =
    (if cp >>> 11 = 27 then
      if cp &&& 1024 ≠ 0 then
        match pending with
        | some pd =>
          (match pushCodepoint s
              ((((pd &&& 1023) <<< 10) + 65536) ||| (cp &&& 1023)) with
          | .error e => .error e
          | .ok s => .ok (none, s, more))
        | none =>
          match pushCodepoint s cp with
          | .error e => .error e
          | .ok s => .ok (none, s, more)
      else
        match flushPending pending s with
        | .error e => .error e
        | .ok s => .ok (some cp, s, more)
    else
      match flushPending pending s with
      | .error e => .error e
      | .ok s =>
        match pushCodepoint s cp with
        | .error e => .error e
        | .ok s => .ok (none, s, more)) := by
  have hb3 : cp >>> 12 < 16 := by
    rw [Nat.shiftRight_eq_div_pow]
    omega
  have hb2 : (cp >>> 8) &&& 15 < 16 := by
    rw [and_mask _ 4 15 (by norm_num)]
    omega
  have hb1 : (cp >>> 4) &&& 15 < 16 := by
    rw [and_mask _ 4 15 (by norm_num)]
    omega
  have hb0 : cp &&& 15 < 16 := by
    rw [and_mask _ 4 15 (by norm_num)]
    omega
  simp only [utf16Escape, hexDigit_hexCh _ hb3, hexDigit_hexCh _ hb2,
    hexDigit_hexCh _ hb1, hexDigit_hexCh _ hb0, hexAssemble cp hcp]

/-- A `\uXXXX` escape of a BMP non-surrogate codepoint with no pending
surrogate: the codepoint's encoding is appended. -/
theorem utf16Escape_bmp (s : List Nat) (cp : Nat) (hcp : cp < 65536)
    (hns : ¬(55296 ≤ cp ∧ cp ≤ 57343)) (more : List Nat) :
    utf16Escape none s
      (hexCh (cp >>> 12) :: hexCh ((cp >>> 8) &&& 15) ::
        hexCh ((cp >>> 4) &&& 15) :: hexCh (cp &&& 15) :: more) =
      .ok (none, s ++ wtf8 cp, more) := by
  rw [utf16Escape_escU none s cp hcp more]
  have hs : ¬(cp >>> 11 = 27) := by
    rw [Nat.shiftRight_eq_div_pow]
    norm_num
    omega
  rw [if_neg hs]
  simp only [flushPending, pushCodepoint]
  rw [if_neg (by omega), pushCPU_append]

/-- A `\uXXXX` escape of a high surrogate with no pending surrogate: the
value is buffered as pending and nothing is emitted. -/
theorem utf16Escape_high (s : List Nat) (hi : Nat) (h1 : 55296 ≤ hi)
    (h2 : hi ≤ 56319) (more : List Nat) :
    utf16Escape none s
      (hexCh (hi >>> 12) :: hexCh ((hi >>> 8) &&& 15) ::
        hexCh ((hi >>> 4) &&& 15) :: hexCh (hi &&& 15) :: more) =
      .ok (some hi, s, more) := by
  rw [utf16Escape_escU none s hi (by omega) more]
  have hs : hi >>> 11 = 27 := by
    rw [Nat.shiftRight_eq_div_pow]
    norm_num
    omega
  have hbit : hi &&& 1024 = 0 := by
    rw [(by omega : hi = 2 ^ 10 * 54 + (hi - 55296)),
      (by norm_num : (1024 : Nat) = 2 ^ 10), Nat.and_two_pow,
      Nat.testBit_mul_pow_two_add 54 (by omega) 10]
    norm_num
  rw [if_pos hs, if_neg (by rw [hbit]; simp)]
  simp only [flushPending]

/-- `utf16_escape` on four serialized hex digits with a pending high
surrogate: same as `utf16Escape_escU` with the pending slot
resolved. -/
theorem utf16Escape_escU_some (pd : Nat) (s : List Nat) (cp : Nat)
    (hcp : cp < 65536) (more : List Nat) :
    utf16Escape (some pd) s
      (hexCh (cp >>> 12) :: hexCh ((cp >>> 8) &&& 15) ::
        hexCh ((cp >>> 4) &&& 15) :: hexCh (cp &&& 15) :: more) =
    (if cp >>> 11 = 27 then
      if cp &&& 1024 ≠ 0 then
        match pushCodepoint s
            ((((pd &&& 1023) <<< 10) + 65536) ||| (cp &&& 1023)) with
        | .error e => .error e
        | .ok s => .ok (none, s, more)
      else
        match pushCodepoint s pd with
        | .error e => .error e
        | .ok s => .ok (some cp, s, more)
    else
      match pushCodepoint s pd with
      | .error e => .error e
      | .ok s1 =>
        match pushCodepoint s1 cp with
        | .error e => .error e
        | .ok s2 => .ok (none, s2, more)) := by
  have hb3 : cp >>> 12 < 16 := by
    rw [Nat.shiftRight_eq_div_pow]
    omega
  have hb2 : (cp >>> 8) &&& 15 < 16 := by
    rw [and_mask _ 4 15 (by norm_num)]
    omega
  have hb1 : (cp >>> 4) &&& 15 < 16 := by
    rw [and_mask _ 4 15 (by norm_num)]
    omega
  have hb0 : cp &&& 15 < 16 := by
    rw [and_mask _ 4 15 (by norm_num)]
    omega
  simp only [utf16Escape, hexDigit_hexCh _ hb3, hexDigit_hexCh _ hb2,
    hexDigit_hexCh _ hb1, hexDigit_hexCh _ hb0, hexAssemble cp hcp,
    flushPending]

/-- A `\uXXXX` escape of the low surrogate of an astral codepoint with
its high surrogate pending: the pair is combined back into the
codepoint and emitted. -/
theorem utf16Escape_low (s : List Nat) (c : Nat) (h1 : 65536 ≤ c)
    (h2 : c ≤ 1114111) (more : List Nat) :
    utf16Escape (some (55296 + ((c - 65536) >>> 10))) s
      (hexCh ((56320 + ((c - 65536) &&& 1023)) >>> 12) ::
        hexCh (((56320 + ((c - 65536) &&& 1023)) >>> 8) &&& 15) ::
        hexCh (((56320 + ((c - 65536) &&& 1023)) >>> 4) &&& 15) ::
        hexCh ((56320 + ((c - 65536) &&& 1023)) &&& 15) :: more) =
      .ok (none, s ++ wtf8 c, more) := by
  have hu : (c - 65536) >>> 10 = (c - 65536) / 1024 := by
    rw [Nat.shiftRight_eq_div_pow]
  have hw : (c - 65536) &&& 1023 = (c - 65536) % 1024 := by
    rw [and_mask _ 10 1023 (by norm_num)]
    norm_num
  rw [hw]
  rw [utf16Escape_escU_some (55296 + ((c - 65536) >>> 10)) s
    (56320 + (c - 65536) % 1024) (by omega) more]
  have hs : (56320 + (c - 65536) % 1024) >>> 11 = 27 := by
    rw [Nat.shiftRight_eq_div_pow]
    norm_num
    omega
  have hbit : (56320 + (c - 65536) % 1024) &&& 1024 ≠ 0 := by
    rw [(by omega : 56320 + (c - 65536) % 1024 =
        2 ^ 10 * 55 + (c - 65536) % 1024),
      (by norm_num : (1024 : Nat) = 2 ^ 10), Nat.and_two_pow,
      Nat.testBit_mul_pow_two_add 55 (by omega) 10]
    norm_num
  rw [if_pos hs, if_pos hbit]
  have hhi : (55296 + ((c - 65536) >>> 10)) &&& 1023 = (c - 65536) / 1024 := by
    rw [hu, and_mask _ 10 1023 (by norm_num)]
    omega
  have hlo : (56320 + (c - 65536) % 1024) &&& 1023 = (c - 65536) % 1024 := by
    rw [and_mask _ 10 1023 (by norm_num)]
    omega
  have hcomb : ((((c - 65536) / 1024) <<< 10) + 65536) |||
      ((c - 65536) % 1024) = c := by
    rw [Nat.shiftLeft_eq,
      (by ring : (c - 65536) / 1024 * 2 ^ 10 + 65536 =
        2 ^ 10 * ((c - 65536) / 1024 + 64)),
      or_eq_add (by omega)]
    omega
  rw [hhi, hlo, hcomb]
  simp only [pushCodepoint]
  rw [if_neg (by omega)]
  dsimp only
  rw [pushCPU_append]

/-- Every serialized codepoint takes at least 3 bytes. -/
theorem serCp_length (c : Nat) : 3 ≤ (serCp c).length := by
  by_cases h16 : c < 65536
  · by_cases hsur : 55296 ≤ c ∧ c ≤ 57343
    · simp only [serCp, if_pos h16, if_pos hsur]
      rw [wtf8_surrogate c hsur.1 hsur.2]
      simp
    · simp [serCp, h16, hsur, escU]
  · simp [serCp, h16, escU]

/-- A serialized string body takes at least 3 bytes per codepoint. -/
theorem serStr_length : ∀ cps : List Nat,
    3 * cps.length ≤ (serStr cps).length := by
  intro cps
  induction cps with
  | nil => simp [serStr]
  | cons c t ih =>
    have hc := serCp_length c
    simp only [serStr, List.length_append, List.length_cons]
    omega

/-- One step of the string loop on a `\u` escape. -/
theorem parseStringGo_escape (fuel : Nat) (p : Option Nat)
    (s rest2 : List Nat) :
    parseStringGo (fuel + 1) p s (92 :: 117 :: rest2) =
      match utf16Escape p s rest2 with
      | .error e => .error e
      | .ok (p2, s2, rest3) => parseStringGo fuel p2 s2 rest3 := rfl

/-- One step of the string loop on a `\u` escape whose outcome is
known. -/
theorem parseStringGo_escape_ok (fuel : Nat) (p : Option Nat)
    (s rest2 : List Nat) (p2 : Option Nat) (s2 rest3 : List Nat)
    (h : utf16Escape p s rest2 = .ok (p2, s2, rest3)) :
    parseStringGo (fuel + 1) p s (92 :: 117 :: rest2) =
      parseStringGo fuel p2 s2 rest3 := by
  rw [parseStringGo_escape, h]

/-- One step of the string loop on a raw lead byte 0xED. -/
theorem parseStringGo_b237 (fuel : Nat) (p : Option Nat) (s r : List Nat) :
    parseStringGo (fuel + 1) p s (237 :: r) =
      match readUtf8Codepoint (237 :: r) with
      | .error e => .error e
      | .ok (cp, rest2) =>
        match flushPending p s with
        | .error e => .error e
        | .ok s1 =>
          match pushCodepoint s1 cp with
          | .error e => .error e
          | .ok s2 => parseStringGo fuel none s2 rest2 := rfl

/-- One step of the string loop on a raw 0xED sequence that decodes to
an in-range codepoint, with nothing pending. -/
theorem parseStringGo_b237_ok (fuel : Nat) (s r rest2 : List Nat) (cp : Nat)
    (h1 : readUtf8Codepoint (237 :: r) = .ok (cp, rest2))
    (hcp : cp ≤ 1114111) :
    parseStringGo (fuel + 1) none s (237 :: r) =
      parseStringGo fuel none (pushCodepointUnchecked s cp) rest2 := by
  rw [parseStringGo_b237, h1]
  dsimp only
  simp only [flushPending]
  simp only [pushCodepoint]
  rw [if_neg (by omega)]

/-- The string loop consumes a serialized string body item by item,
keeping the pending slot empty between items, and stops at the closing
quote having accumulated exactly the codepoints' encodings. -/
theorem stringGo_ser : ∀ (cps : List Nat) (fuel : Nat) (s rest : List Nat),
    (∀ c ∈ cps, c ≤ 1114111) → 2 * cps.length < fuel →
    parseStringGo fuel none s (serStr cps ++ (34 :: rest)) =
      .ok (none, s ++ strBytes cps, rest) := by
  intro cps
  induction cps with
  | nil =>
    intro fuel s rest _ hf
    obtain ⟨f, rfl⟩ : ∃ f, fuel = f + 1 := ⟨fuel - 1, by omega⟩
    simp [serStr, parseStringGo, strBytes]
  | cons c t ih =>
    intro fuel s rest hcps hf
    have hc : c ≤ 1114111 := hcps c (by simp)
    have ht : ∀ x ∈ t, x ≤ 1114111 := fun x hx => hcps x (by simp [hx])
    simp only [List.length_cons] at hf
    obtain ⟨f, rfl⟩ : ∃ f, fuel = f + 1 := ⟨fuel - 1, by omega⟩
    have hf2 : 2 * t.length < f := by omega
    have hstr : strBytes (c :: t) = wtf8 c ++ strBytes t := rfl
    by_cases h16 : c < 65536
    · by_cases hsur : 55296 ≤ c ∧ c ≤ 57343
      · -- raw WTF-8 surrogate
        have hserCp : serCp c = [237, 128 + c / 64 % 64, 128 + c % 64] := by
          simp only [serCp, if_pos h16, if_pos hsur]
          exact wtf8_surrogate c hsur.1 hsur.2
        have hser : serStr (c :: t) ++ (34 :: rest) =
            237 :: (128 + c / 64 % 64) :: (128 + c % 64) ::
              (serStr t ++ (34 :: rest)) := by
          rw [show serStr (c :: t) = serCp c ++ serStr t from rfl, hserCp]
          simp
        rw [hser,
          parseStringGo_b237_ok f s _ _ c
            (readUtf8_surrogate c hsur.1 hsur.2 (serStr t ++ (34 :: rest)))
            hc,
          pushCPU_append, ih f (s ++ wtf8 c) rest ht hf2, hstr]
        simp [List.append_assoc]
      · -- escaped BMP codepoint
        have hserCp : serCp c = escU c := by simp [serCp, h16, hsur]
        have hser : serStr (c :: t) ++ (34 :: rest) =
            92 :: 117 :: (hexCh (c >>> 12) :: hexCh ((c >>> 8) &&& 15) ::
              hexCh ((c >>> 4) &&& 15) :: hexCh (c &&& 15) ::
              (serStr t ++ (34 :: rest))) := by
          rw [show serStr (c :: t) = serCp c ++ serStr t from rfl, hserCp]
          simp [escU]
        rw [hser,
          parseStringGo_escape_ok f none s _ _ _ _
            (utf16Escape_bmp s c h16 hsur (serStr t ++ (34 :: rest))),
          ih f (s ++ wtf8 c) rest ht hf2, hstr]
        simp [List.append_assoc]
    · -- astral codepoint: surrogate pair of escapes
      have hu : (c - 65536) >>> 10 = (c - 65536) / 1024 := by
        rw [Nat.shiftRight_eq_div_pow]
      have hserCp : serCp c =
          escU (55296 + ((c - 65536) >>> 10)) ++
            escU (56320 + ((c - 65536) &&& 1023)) := by
        simp [serCp, h16]
      have hser : serStr (c :: t) ++ (34 :: rest) =
          92 :: 117 :: (hexCh ((55296 + ((c - 65536) >>> 10)) >>> 12) ::
            hexCh (((55296 + ((c - 65536) >>> 10)) >>> 8) &&& 15) ::
            hexCh (((55296 + ((c - 65536) >>> 10)) >>> 4) &&& 15) ::
            hexCh ((55296 + ((c - 65536) >>> 10)) &&& 15) ::
            (92 :: 117 :: (hexCh ((56320 + ((c - 65536) &&& 1023)) >>> 12) ::
              hexCh (((56320 + ((c - 65536) &&& 1023)) >>> 8) &&& 15) ::
              hexCh (((56320 + ((c - 65536) &&& 1023)) >>> 4) &&& 15) ::
              hexCh ((56320 + ((c - 65536) &&& 1023)) &&& 15) ::
              (serStr t ++ (34 :: rest))))) := by
        rw [show serStr (c :: t) = serCp c ++ serStr t from rfl, hserCp]
        simp [escU]
      obtain ⟨f2, rfl⟩ : ∃ f2, f = f2 + 1 := ⟨f - 1, by omega⟩
      rw [hser,
        parseStringGo_escape_ok (f2 + 1) none s _ _ _ _
          (utf16Escape_high s (55296 + ((c - 65536) >>> 10)) (by omega)
            (by rw [hu]; omega) _),
        parseStringGo_escape_ok f2 (some (55296 + ((c - 65536) >>> 10))) s
          _ _ _ _ (utf16Escape_low s c (by omega) hc _),
        ih f2 (s ++ wtf8 c) rest ht (by omega), hstr]
      simp [List.append_assoc]

/-- `parse_string` on a serialized string body followed by the closing
quote: the resulting `CJString` holds exactly the codepoints' encodings
plus the NUL terminator, with the length excluding the terminator. -/
theorem parseString_ser (cps : List Nat) (h : ∀ c ∈ cps, c ≤ 1114111)
    (rest : List Nat) :
    parseString (serStr cps ++ (34 :: rest)) =
      .ok ({ length := (strBytes cps).length,
             chars := strBytes cps ++ [0] }, rest) := by
  have h3 := serStr_length cps
  have hlen : 2 * cps.length < (serStr cps ++ (34 :: rest)).length + 1 := by
    simp only [List.length_append, List.length_cons]
    omega
  simp only [parseString]
  rw [stringGo_ser cps _ [] rest h hlen]
  dsimp only
  simp [flushPending, pushChar]

/-! ### The value-level round trip -/

/-- The first byte of a serialized well-formed value: a keyword letter,
quote, digit, sign or opening bracket — never whitespace, a comma or a
closer. -/
theorem serV_head (v : JVal) (hwf : wfJ v = true) :
    ∃ d t, serV v = d :: t ∧ 34 ≤ d ∧ d ≤ 123 ∧ d ≠ 93 ∧ d ≠ 125 := by
  cases v with
  | null =>
    exact ⟨110, [117, 108, 108], rfl, by omega, by omega, by omega, by omega⟩
  | boolean b =>
    cases b with
    | false =>
      exact ⟨102, [97, 108, 115, 101], rfl, by omega, by omega, by omega,
        by omega⟩
    | true =>
      exact ⟨116, [114, 117, 101], rfl, by omega, by omega, by omega,
        by omega⟩
  | number n =>
    cases n with
    | zero => exact ⟨48, [], rfl, by omega, by omega, by omega, by omega⟩
    | fin neg mant e3 eneg =>
      have hwfn : wfNum (.fin neg mant e3 eneg) = true := by
        simpa [wfJ] using hwf
      simp only [wfNum, Bool.and_eq_true, decide_eq_true_eq] at hwfn
      obtain ⟨⟨⟨h1, h2⟩, -⟩, -⟩ := hwfn
      have hmpos : 0 < mant := by
        have : (0 : Nat) < 10 ^ 18 := by positivity
        omega
      obtain ⟨d1, ds', hdt, h49, h57⟩ := (decDigits_pos_spec mant hmpos).1
      cases neg with
      | false =>
        refine ⟨d1, ds' ++ (101 :: (if eneg = true then 45 else 43) ::
          decDigits e3), ?_, by omega, by omega, by omega, by omega⟩
        simp [serV, serNum, hdt]
      | true =>
        refine ⟨45, decDigits mant ++ (101 ::
          (if eneg = true then 45 else 43) :: decDigits e3), ?_, by omega,
          by omega, by omega, by omega⟩
        simp [serV, serNum]
    | inf neg =>
      cases neg with
      | false =>
        exact ⟨49, [101, 57, 57, 57], by simp [serV, serNum], by omega,
          by omega, by omega, by omega⟩
      | true =>
        exact ⟨45, [49, 101, 57, 57, 57], by simp [serV, serNum], by omega,
          by omega, by omega, by omega⟩
  | string cps =>
    exact ⟨34, serStr cps ++ [34], by simp [serV], by omega, by omega,
      by omega, by omega⟩
  | array es =>
    exact ⟨91, serElems es ++ [93], by simp [serV], by omega, by omega,
      by omega, by omega⟩
  | object ms =>
    exact ⟨123, serMembers ms ++ [125], by simp [serV], by omega, by omega,
      by omega, by omega⟩

/-- No leading whitespace before a serialized value. -/
theorem serV_skipWs (v : JVal) (hwf : wfJ v = true) (X : List Nat) :
    skipWs (serV v ++ X) = serV v ++ X := by
  obtain ⟨d, t, hdt, h1, h2, -, -⟩ := serV_head v hwf
  rw [hdt, List.cons_append]
  simp only [skipWs]
  rw [if_neg (by omega)]

/-- A serialized value never starts with a container closer. -/
theorem serV_check (v : JVal) (hwf : wfJ v = true) (X : List Nat) (c : Nat)
    (hc : c = 93 ∨ c = 125) : check (serV v ++ X) c = false := by
  obtain ⟨d, t, hdt, h1, h2, h3, h4⟩ := serV_head v hwf
  rw [hdt, List.cons_append]
  simp only [check]
  rcases hc with rfl | rfl
  · exact decide_eq_false h3
  · exact decide_eq_false h4

/-- Evaluation of `parse` on a quote-headed input below the depth limit:
dispatch to `parse_string`. -/
theorem parseV_quote (fuel d : Nat) (l : List Nat) (hd : d + 1 ≠ 1024) :
    parseV (fuel + 1) d (34 :: l) =
      match parseString l with
      | .error e => .error e
      | .ok (s, rest) => .ok (.string s, skipWs rest) := by
  simp +decide [parseV, skipWs, check, isDigit, CJ_MAX_DEPTH, hd]
  cases parseString l with
  | error e => rfl
  | ok p => obtain ⟨s, rest⟩ := p; rfl

/-- Evaluation of `parse` on a `{`-headed input below the depth limit:
dispatch to `parse_object` at the incremented depth. -/
theorem parseV_open_brace (fuel d : Nat) (l : List Nat) (hd : d + 1 ≠ 1024) :
    parseV (fuel + 1) d (123 :: l) =
      match parseObject fuel (d + 1) l with
      | .error e => .error e
      | .ok (ms, rest) => .ok (.object ms, skipWs rest) := by
  simp +decide [parseV, skipWs, check, isDigit, CJ_MAX_DEPTH, hd]
  cases parseObject fuel (d + 1) l with
  | error e => rfl
  | ok p => obtain ⟨ms, rest⟩ := p; rfl

mutual

/-- The fuel needed by a value is within the fuel budget `cj_parse`
derives from the input length. -/
theorem fneed_le : ∀ v : JVal, fneed v + 1 ≤ 2 * (serV v).length
  | .null => by simp [fneed, serV]
  | .boolean b => by cases b <;> simp [fneed, serV]
  | .number n => by
    have h1 : 1 ≤ (serNum n).length := by
      cases n with
      | zero => simp [serNum]
      | fin neg mant e3 eneg =>
        obtain ⟨d, t, hdt, -, -⟩ := (decDigits_spec mant).2.1
        cases neg <;> simp [serNum, hdt]
      | inf neg => cases neg <;> simp [serNum]
    simp only [fneed, serV]
    omega
  | .string cps => by simp [fneed, serV]
  | .array es => by
    have h := fneedE_le es
    simp only [fneed, serV, List.length_cons, List.length_append,
      List.length_singleton]
    omega
  | .object ms => by
    have h := fneedM_le ms
    simp only [fneed, serV, List.length_cons, List.length_append,
      List.length_singleton]
    omega

/-- Fuel bound for element lists. -/
theorem fneedE_le : ∀ es : List JVal,
    fneedE es ≤ 2 * (serElems es).length + 1
  | [] => by simp [fneedE, serElems]
  | [e] => by
    have h := fneed_le e
    simp only [fneedE, serElems, List.length_nil]
    omega
  | e1 :: e2 :: t => by
    have h1 := fneed_le e1
    have h2 := fneedE_le (e2 :: t)
    simp only [fneedE] at h2
    simp only [fneedE, serElems, List.length_append, List.length_cons]
    omega

/-- Fuel bound for member lists. -/
theorem fneedM_le : ∀ ms : List (List Nat × JVal),
    fneedM ms ≤ 2 * (serMembers ms).length + 1
  | [] => by simp [fneedM, serMembers]
  | [(k, v)] => by
    have h := fneed_le v
    simp only [fneedM, serMembers, List.length_cons, List.length_append]
    omega
  | (k1, v1) :: (k2, v2) :: t => by
    have h1 := fneed_le v1
    have h2 := fneedM_le ((k2, v2) :: t)
    simp only [fneedM] at h2
    simp only [fneedM, serMembers, List.length_cons, List.length_append]
    omega

end

/-- One-step unfolding of the member loop: the recursive occurrence is
kept folded so that rewriting does not cascade into it. -/
theorem parseObjectMembers_step (fuel d : Nat)
    (acc : List (CJString × CJValue)) (input : List Nat) :
    parseObjectMembers (fuel + 1) d acc input =
      match parseMember fuel d input with
      | .error e => .error e
      | .ok (m, rest) =>
        match rest with
        | 44 :: rest2 => parseObjectMembers fuel d (acc ++ [m]) rest2
        | _ => .ok (acc ++ [m], rest) := rfl

mutual

/-- Parsing the serialization of a well-formed value tree below the
depth limit, with enough fuel and followed by end-of-input or a
separator/closer, succeeds with the tree's image and consumes exactly
the serialized bytes. -/
theorem roundtripV : ∀ (v : JVal) (fuel d : Nat) (rest : List Nat),
    wfJ v = true → d + jdepth v ≤ 1023 → fneed v ≤ fuel → goodRest rest →
    parseV fuel d (serV v ++ rest) = .ok (toCJ v, rest)
  | .null, fuel, d, rest => by
    intro hwf hd hf hr
    simp only [fneed] at hf
    simp only [jdepth] at hd
    obtain ⟨f, rfl⟩ : ∃ f, fuel = f + 1 := ⟨fuel - 1, by omega⟩
    have hser : serV .null ++ rest = 110 :: 117 :: 108 :: 108 :: rest := rfl
    rw [hser]
    simp +decide [parseV, skipWs, check, isDigit, require, CJ_MAX_DEPTH,
      show d + 1 ≠ 1024 by omega, goodRest_skipWs hr, toCJ]
  | .boolean b, fuel, d, rest => by
    intro hwf hd hf hr
    simp only [fneed] at hf
    simp only [jdepth] at hd
    obtain ⟨f, rfl⟩ : ∃ f, fuel = f + 1 := ⟨fuel - 1, by omega⟩
    cases b with
    | true =>
      have hser : serV (.boolean true) ++ rest =
          116 :: 114 :: 117 :: 101 :: rest := rfl
      rw [hser]
      simp +decide [parseV, skipWs, check, isDigit, require, CJ_MAX_DEPTH,
        show d + 1 ≠ 1024 by omega, goodRest_skipWs hr, toCJ]
    | false =>
      have hser : serV (.boolean false) ++ rest =
          102 :: 97 :: 108 :: 115 :: 101 :: rest := rfl
      rw [hser]
      simp +decide [parseV, skipWs, check, isDigit, require, CJ_MAX_DEPTH,
        show d + 1 ≠ 1024 by omega, goodRest_skipWs hr, toCJ]
  | .number n, fuel, d, rest => by
    intro hwf hd hf hr
    simp only [fneed] at hf
    simp only [jdepth] at hd
    obtain ⟨f, rfl⟩ : ∃ f, fuel = f + 1 := ⟨fuel - 1, by omega⟩
    have hwfn : wfNum n = true := by simpa [wfJ] using hwf
    obtain ⟨d0, t0, hdt0, hd0⟩ :
        ∃ d0 t0, serNum n = d0 :: t0 ∧
          (d0 = 45 ∨ (48 ≤ d0 ∧ d0 ≤ 57)) := by
      cases n with
      | zero => exact ⟨48, [], rfl, Or.inr (by omega)⟩
      | fin neg mant e3 eneg =>
        simp only [wfNum, Bool.and_eq_true, decide_eq_true_eq] at hwfn
        obtain ⟨⟨⟨h1, h2⟩, -⟩, -⟩ := hwfn
        have hmpos : 0 < mant := by
          have : (0 : Nat) < 10 ^ 18 := by positivity
          omega
        obtain ⟨d1, ds', hdt, h49, h57⟩ := (decDigits_pos_spec mant hmpos).1
        cases neg with
        | false =>
          exact ⟨d1, ds' ++ (101 :: (if eneg = true then 45 else 43) ::
            decDigits e3), by simp [serNum, hdt], Or.inr ⟨by omega, h57⟩⟩
        | true =>
          exact ⟨45, decDigits mant ++ (101 ::
            (if eneg = true then 45 else 43) :: decDigits e3),
            by simp [serNum], Or.inl rfl⟩
      | inf neg =>
        cases neg with
        | false =>
          exact ⟨49, [101, 57, 57, 57], by simp [serNum], Or.inr (by omega)⟩
        | true =>
          exact ⟨45, [49, 101, 57, 57, 57], by simp [serNum], Or.inl rfl⟩
    have hskip : skipWs (serV (.number n) ++ rest) = serNum n ++ rest := by
      rw [show serV (.number n) = serNum n from rfl, hdt0, List.cons_append]
      simp only [skipWs]
      rw [if_neg (by rcases hd0 with h | h <;> omega)]
    have hcond : (check (serNum n ++ rest) 45 ||
        isDigit (serNum n ++ rest)) = true := by
      rw [hdt0, List.cons_append]
      simp only [check, isDigit, Bool.or_eq_true, decide_eq_true_eq]
      rcases hd0 with h | h <;> omega
    simp only [parseV]
    rw [if_neg (show ¬(d + 1 = CJ_MAX_DEPTH) by
      simp only [CJ_MAX_DEPTH]; omega)]
    rw [hskip, if_pos hcond, parseNumber_ser n hwfn rest hr]
    dsimp only
    rw [goodRest_skipWs hr]
    simp [toCJ]
  | .string cps, fuel, d, rest => by
    intro hwf hd hf hr
    simp only [fneed] at hf
    simp only [jdepth] at hd
    obtain ⟨f, rfl⟩ : ∃ f, fuel = f + 1 := ⟨fuel - 1, by omega⟩
    have hcps : ∀ c ∈ cps, c ≤ 1114111 := by
      simpa [wfJ, List.all_eq_true] using hwf
    have hser : serV (.string cps) ++ rest =
        34 :: (serStr cps ++ (34 :: rest)) := by
      simp [serV]
    rw [hser, parseV_quote f d _ (by omega), parseString_ser cps hcps rest]
    dsimp only
    rw [goodRest_skipWs hr]
    simp [toCJ]
  | .array [], fuel, d, rest => by
    intro hwf hd hf hr
    simp only [fneed, fneedE] at hf
    simp only [jdepth, jdepthE] at hd
    obtain ⟨f, rfl⟩ : ∃ f, fuel = f + 1 := ⟨fuel - 1, by omega⟩
    obtain ⟨g, rfl⟩ : ∃ g, f = g + 1 := ⟨f - 1, by omega⟩
    have hser : serV (.array []) ++ rest = 91 :: (93 :: rest) := by
      simp [serV, serElems]
    rw [hser, parseV_open_bracket (g + 1) d _ (by omega)]
    simp +decide [parseArray, skipWs, check, require, goodRest_skipWs hr,
      toCJ, toCJL]
  | .array (e :: t), fuel, d, rest => by
    intro hwf hd hf hr
    simp only [fneed] at hf
    simp only [jdepth] at hd
    obtain ⟨f, rfl⟩ : ∃ f, fuel = f + 1 := ⟨fuel - 1, by omega⟩
    obtain ⟨g, rfl⟩ : ∃ g, f = g + 1 := ⟨f - 1, by omega⟩
    have hwfE : wfE (e :: t) = true := by simpa [wfJ] using hwf
    have hwfe : wfJ e = true := by
      have hsplit : wfE (e :: t) = (wfJ e && wfE t) := rfl
      rw [hsplit, Bool.and_eq_true] at hwfE
      exact hwfE.1
    have hwfE2 : wfE (e :: t) = true := by simpa [wfJ] using hwf
    have hser : serV (.array (e :: t)) ++ rest =
        91 :: (serElems (e :: t) ++ (93 :: rest)) := by
      simp [serV, List.append_assoc]
    rw [hser, parseV_open_bracket (g + 1) d _ (by omega)]
    obtain ⟨Y, hY⟩ : ∃ Y, serElems (e :: t) = serV e ++ Y := by
      cases t with
      | nil => exact ⟨[], by simp [serElems]⟩
      | cons x xs => exact ⟨44 :: serElems (x :: xs), rfl⟩
    have hskip : skipWs (serElems (e :: t) ++ (93 :: rest)) =
        serElems (e :: t) ++ (93 :: rest) := by
      rw [hY, List.append_assoc, serV_skipWs e hwfe, ← List.append_assoc]
    have hchk : check (serElems (e :: t) ++ (93 :: rest)) 93 = false := by
      rw [hY, List.append_assoc]
      exact serV_check e hwfe _ 93 (Or.inl rfl)
    simp only [parseArray]
    rw [hskip]
    simp only [hchk, Bool.false_eq_true, if_false]
    rw [roundtripElems (e :: t) g (d + 1) [] (93 :: rest) (by simp) hwfE2
      (by omega) (by omega) ⟨rest, rfl⟩]
    dsimp only
    simp +decide [require, check, goodRest_skipWs hr, toCJ]
  | .object [], fuel, d, rest => by
    intro hwf hd hf hr
    simp only [fneed, fneedM] at hf
    simp only [jdepth, jdepthM] at hd
    obtain ⟨f, rfl⟩ : ∃ f, fuel = f + 1 := ⟨fuel - 1, by omega⟩
    obtain ⟨g, rfl⟩ : ∃ g, f = g + 1 := ⟨f - 1, by omega⟩
    have hser : serV (.object []) ++ rest = 123 :: (125 :: rest) := by
      simp [serV, serMembers]
    rw [hser, parseV_open_brace (g + 1) d _ (by omega)]
    simp +decide [parseObject, skipWs, check, require, goodRest_skipWs hr,
      toCJ, toCJM]
  | .object ((k, v) :: t), fuel, d, rest => by
    intro hwf hd hf hr
    simp only [fneed] at hf
    simp only [jdepth] at hd
    obtain ⟨f, rfl⟩ : ∃ f, fuel = f + 1 := ⟨fuel - 1, by omega⟩
    obtain ⟨g, rfl⟩ : ∃ g, f = g + 1 := ⟨f - 1, by omega⟩
    have hwfM2 : wfM ((k, v) :: t) = true := by simpa [wfJ] using hwf
    have hser : serV (.object ((k, v) :: t)) ++ rest =
        123 :: (serMembers ((k, v) :: t) ++ (125 :: rest)) := by
      simp [serV, List.append_assoc]
    rw [hser, parseV_open_brace (g + 1) d _ (by omega)]
    obtain ⟨Y, hY⟩ : ∃ Y, serMembers ((k, v) :: t) = 34 :: Y := by
      cases t with
      | nil => exact ⟨serStr k ++ 34 :: 58 :: serV v, rfl⟩
      | cons x xs =>
        exact ⟨serStr k ++ 34 :: 58 :: serV v ++ 44 :: serMembers (x :: xs),
          rfl⟩
    have hskip : skipWs (serMembers ((k, v) :: t) ++ (125 :: rest)) =
        serMembers ((k, v) :: t) ++ (125 :: rest) := by
      rw [hY, List.cons_append]
      simp only [skipWs]
      rw [if_neg (by omega)]
    have hchk : check (serMembers ((k, v) :: t) ++ (125 :: rest)) 125
        = false := by
      rw [hY, List.cons_append]
      simp only [check]
      rfl
    simp only [parseObject]
    rw [hskip]
    simp only [hchk, Bool.false_eq_true, if_false]
    rw [roundtripMembers ((k, v) :: t) g (d + 1) [] (125 :: rest) (by simp)
      hwfM2 (by omega) (by omega) ⟨rest, rfl⟩]
    dsimp only
    simp +decide [require, check, goodRest_skipWs hr, toCJ]

/-- The element loop on the serialization of a nonempty element list,
stopping at the closing bracket. -/
theorem roundtripElems : ∀ (es : List JVal) (fuel d : Nat)
    (acc : List CJValue) (rest : List Nat),
    es ≠ [] → wfE es = true → d + jdepthE es ≤ 1023 → fneedE es ≤ fuel →
    (∃ r, rest = 93 :: r) →
    parseArrayElems fuel d acc (serElems es ++ rest) =
      .ok (acc ++ toCJL es, rest)
  | [], _, _, _, _ => by
    intro hne _ _ _ _
    exact absurd rfl hne
  | [e], fuel, d, acc, rest => by
    intro hne hwf hd hf hr
    simp only [fneedE] at hf
    obtain ⟨h, rfl⟩ : ∃ h, fuel = h + 1 := ⟨fuel - 1, by omega⟩
    have hwfe : wfJ e = true := by
      have hsplit : wfE [e] = (wfJ e && wfE []) := rfl
      rw [hsplit, Bool.and_eq_true] at hwf
      exact hwf.1
    have hde : d + jdepth e ≤ 1023 := by
      have hsplit : jdepthE [e] = max (jdepth e) (jdepthE []) := rfl
      rw [hsplit] at hd
      omega
    obtain ⟨r, rfl⟩ := hr
    have hser : serElems [e] ++ (93 :: r) = serV e ++ (93 :: r) := by
      simp [serElems]
    simp only [parseArrayElems]
    rw [hser, roundtripV e h d (93 :: r) hwfe hde (by omega)
      (Or.inr ⟨r, Or.inr (Or.inl rfl)⟩)]
    simp +decide [toCJL]
  | e1 :: e2 :: t, fuel, d, acc, rest => by
    intro hne hwf hd hf hr
    have hfd : fneedE (e1 :: e2 :: t) =
        1 + fneed e1 + fneedE (e2 :: t) := rfl
    rw [hfd] at hf
    obtain ⟨h, rfl⟩ : ∃ h, fuel = h + 1 := ⟨fuel - 1, by omega⟩
    have hsplit : wfE (e1 :: e2 :: t) = (wfJ e1 && wfE (e2 :: t)) := rfl
    rw [hsplit, Bool.and_eq_true] at hwf
    obtain ⟨he1, hrest⟩ := hwf
    have hds : jdepthE (e1 :: e2 :: t) =
        max (jdepth e1) (jdepthE (e2 :: t)) := rfl
    rw [hds] at hd
    obtain ⟨r, rfl⟩ := hr
    have hser : serElems (e1 :: e2 :: t) ++ (93 :: r) =
        serV e1 ++ (44 :: (serElems (e2 :: t) ++ (93 :: r))) := by
      simp [serElems, List.append_assoc]
    simp only [parseArrayElems]
    rw [hser, roundtripV e1 h d _ he1 (by omega) (by omega)
      (Or.inr ⟨serElems (e2 :: t) ++ (93 :: r), Or.inl rfl⟩)]
    dsimp only
    rw [roundtripElems (e2 :: t) h d (acc ++ [toCJ e1]) (93 :: r)
      (by simp) hrest (by omega) (by omega) ⟨r, rfl⟩]
    simp [toCJL, List.append_assoc]

/-- The member loop on the serialization of a nonempty member list,
stopping at the closing brace. -/
theorem roundtripMembers : ∀ (ms : List (List Nat × JVal)) (fuel d : Nat)
    (acc : List (CJString × CJValue)) (rest : List Nat),
    ms ≠ [] → wfM ms = true → d + jdepthM ms ≤ 1023 → fneedM ms ≤ fuel →
    (∃ r, rest = 125 :: r) →
    parseObjectMembers fuel d acc (serMembers ms ++ rest) =
      .ok (acc ++ toCJM ms, rest)
  | [], _, _, _, _ => by
    intro hne _ _ _ _
    exact absurd rfl hne
  | [(k, v)], fuel, d, acc, rest => by
    intro hne hwf hd hf hr
    have hfd : fneedM [(k, v)] = 2 + fneed v + fneedM [] := rfl
    rw [hfd] at hf
    simp only [fneedM] at hf
    obtain ⟨h, rfl⟩ : ∃ h, fuel = h + 1 + 1 := ⟨fuel - 2, by omega⟩
    have hsplit : wfM [(k, v)] = (k.all (fun c => decide (c ≤ 0x10FFFF)) &&
        wfJ v && wfM []) := rfl
    rw [hsplit, Bool.and_eq_true, Bool.and_eq_true] at hwf
    obtain ⟨⟨hk, hv⟩, -⟩ := hwf
    have hk' : ∀ c ∈ k, c ≤ 1114111 := by
      simpa [List.all_eq_true] using hk
    have hdv : d + jdepth v ≤ 1023 := by
      have hds : jdepthM [(k, v)] = max (jdepth v) (jdepthM []) := rfl
      rw [hds] at hd
      omega
    obtain ⟨r, rfl⟩ := hr
    have hser : serMembers [(k, v)] ++ (125 :: r) =
        34 :: (serStr k ++ (34 :: (58 :: (serV v ++ (125 :: r))))) := by
      simp [serMembers, List.append_assoc]
    simp only [parseObjectMembers]
    rw [hser]
    simp only [parseMember]
    rw [show skipWs (34 :: (serStr k ++ (34 :: (58 ::
        (serV v ++ (125 :: r)))))) =
        34 :: (serStr k ++ (34 :: (58 :: (serV v ++ (125 :: r))))) from by
      simp only [skipWs]
      rw [if_neg (by omega)]]
    rw [show require (34 :: (serStr k ++ (34 :: (58 ::
        (serV v ++ (125 :: r)))))) 34 =
        .ok (serStr k ++ (34 :: (58 :: (serV v ++ (125 :: r))))) from by
      simp +decide [require, check]]
    dsimp only
    rw [parseString_ser k hk' (58 :: (serV v ++ (125 :: r)))]
    dsimp only
    rw [show skipWs (58 :: (serV v ++ (125 :: r))) =
        58 :: (serV v ++ (125 :: r)) from by
      simp only [skipWs]
      rw [if_neg (by omega)]]
    rw [show require (58 :: (serV v ++ (125 :: r))) 58 =
        .ok (serV v ++ (125 :: r)) from by
      simp +decide [require, check]]
    dsimp only
    rw [roundtripV v h d (125 :: r) hv hdv (by omega)
      (Or.inr ⟨r, Or.inr (Or.inr rfl)⟩)]
    simp +decide [toCJM]
  | (k1, v1) :: (k2, v2) :: t, fuel, d, acc, rest => by
    intro hne hwf hd hf hr
    have hfd : fneedM ((k1, v1) :: (k2, v2) :: t) =
        2 + fneed v1 + fneedM ((k2, v2) :: t) := rfl
    rw [hfd] at hf
    obtain ⟨h, rfl⟩ : ∃ h, fuel = h + 1 + 1 := ⟨fuel - 2, by omega⟩
    have hsplit : wfM ((k1, v1) :: (k2, v2) :: t) =
        (k1.all (fun c => decide (c ≤ 0x10FFFF)) && wfJ v1 &&
          wfM ((k2, v2) :: t)) := rfl
    rw [hsplit, Bool.and_eq_true, Bool.and_eq_true] at hwf
    obtain ⟨⟨hk1, hv1⟩, hrest⟩ := hwf
    have hk' : ∀ c ∈ k1, c ≤ 1114111 := by
      simpa [List.all_eq_true] using hk1
    have hds : jdepthM ((k1, v1) :: (k2, v2) :: t) =
        max (jdepth v1) (jdepthM ((k2, v2) :: t)) := rfl
    rw [hds] at hd
    obtain ⟨r, rfl⟩ := hr
    have hser : serMembers ((k1, v1) :: (k2, v2) :: t) ++ (125 :: r) =
        34 :: (serStr k1 ++ (34 :: (58 :: (serV v1 ++ (44 ::
          (serMembers ((k2, v2) :: t) ++ (125 :: r))))))) := by
      simp [serMembers, List.append_assoc]
    rw [parseObjectMembers_step]
    rw [hser]
    simp only [parseMember]
    rw [show skipWs (34 :: (serStr k1 ++ (34 :: (58 :: (serV v1 ++ (44 ::
        (serMembers ((k2, v2) :: t) ++ (125 :: r)))))))) =
        34 :: (serStr k1 ++ (34 :: (58 :: (serV v1 ++ (44 ::
          (serMembers ((k2, v2) :: t) ++ (125 :: r))))))) from by
      simp only [skipWs]
      rw [if_neg (by omega)]]
    rw [show require (34 :: (serStr k1 ++ (34 :: (58 :: (serV v1 ++ (44 ::
        (serMembers ((k2, v2) :: t) ++ (125 :: r)))))))) 34 =
        .ok (serStr k1 ++ (34 :: (58 :: (serV v1 ++ (44 ::
          (serMembers ((k2, v2) :: t) ++ (125 :: r))))))) from by
      simp +decide [require, check]]
    dsimp only
    rw [parseString_ser k1 hk' (58 :: (serV v1 ++ (44 ::
      (serMembers ((k2, v2) :: t) ++ (125 :: r)))))]
    dsimp only
    rw [show skipWs (58 :: (serV v1 ++ (44 ::
        (serMembers ((k2, v2) :: t) ++ (125 :: r))))) =
        58 :: (serV v1 ++ (44 ::
          (serMembers ((k2, v2) :: t) ++ (125 :: r)))) from by
      simp only [skipWs]
      rw [if_neg (by omega)]]
    rw [show require (58 :: (serV v1 ++ (44 ::
        (serMembers ((k2, v2) :: t) ++ (125 :: r))))) 58 =
        .ok (serV v1 ++ (44 ::
          (serMembers ((k2, v2) :: t) ++ (125 :: r)))) from by
      simp +decide [require, check]]
    dsimp only
    rw [roundtripV v1 h d _ hv1 (by omega) (by omega)
      (Or.inr ⟨serMembers ((k2, v2) :: t) ++ (125 :: r), Or.inl rfl⟩)]
    dsimp only
    have hrec := roundtripMembers ((k2, v2) :: t) (h + 1) d
      (acc ++ [({ length := (strBytes k1).length,
                  chars := strBytes k1 ++ [0] }, toCJ v1)]) (125 :: r)
      (by simp) hrest (by omega) (by omega) ⟨r, rfl⟩
    rw [hrec]
    simp [toCJM, List.append_assoc]

end

/-- C9: for every value tree constructible by the grammar with nesting
depth below 1024, serializing it as JSON text under the fixed formatting
convention and feeding the text back to `cj_parse` succeeds and yields a
structurally equal value tree. -/
theorem claim_C9 (v : JVal) (hwf : wfJ v = true)
    (hdep : jdepth v < 1024) : cjParse (serV v) = .ok (toCJ v) := by
  have hfl := fneed_le v
  have h1 := roundtripV v (2 * (serV v).length + 3 + 1) 0 [] hwf
    (by omega) (by omega) (Or.inl rfl)
  rw [List.append_nil] at h1
  have h2 : (2 : Nat) * (serV v).length + 4 =
      (2 * (serV v).length + 3) + 1 := by omega
  simp only [cjParse, h2, parseV_space, h1]
  rfl

set_option maxRecDepth 400000 in
/-- Closed witness for C9: a concrete tree exercising every constructor
— null, booleans, a string with an unpaired surrogate and an astral
codepoint, zero, an infinity, and a negative-exponent finite number
inside an object inside an array. -/
theorem claim_C9_witness :
    wfJ (JVal.array [.null, .boolean true, .string [65, 55296, 128512],
      .number .zero, .number (.inf true),
      .object [([107], .number (.fin false (10 ^ 18 + 5) 2 true))]])
      = true ∧
    jdepth (JVal.array [.null, .boolean true, .string [65, 55296, 128512],
      .number .zero, .number (.inf true),
      .object [([107], .number (.fin false (10 ^ 18 + 5) 2 true))]])
      < 1024 ∧
    cjParse (serV (JVal.array [.null, .boolean true,
      .string [65, 55296, 128512], .number .zero, .number (.inf true),
      .object [([107], .number (.fin false (10 ^ 18 + 5) 2 true))]])) =
      .ok (toCJ (JVal.array [.null, .boolean true,
        .string [65, 55296, 128512], .number .zero, .number (.inf true),
        .object [([107], .number (.fin false (10 ^ 18 + 5) 2 true))]])) :=
  ⟨by decide, by decide, claim_C9 _ (by decide) (by decide)⟩

end CJ
